import Mathlib

/-!
Verification of the two backfill pipelines of the claude-code-metrics
repository: `scripts/backfill-metrics.py` (session aggregation, cost
model, OpenMetrics synthesis) and `scripts/backfill-loki.py` (tool-event
correlation and batched pushing).

Shallow-embedding conventions:
* Python floats (epoch-second timestamps, costs) are modelled as exact
  rationals `ℚ`; Python `int(x)` is `pyInt` (truncation toward zero).
* A JSON field that may be absent is an `Option`; Python truthiness of
  an optional number or string is `qTruthy` / `sTruthy` (`None`, `0.0`
  and `""` are falsy).
* `parse_timestamp` returns `None` for a missing or unparseable
  timestamp string, and both scripts only ever use its result, so a
  record's timestamp is modelled directly as the parse result
  `ts : Option ℚ`.
* Python dicts are association lists in insertion order (`alookup`,
  `aset`, `aerase`); Python sets of ids are duplicate-free lists.
* `f"{v:.6f}"` followed by `float(...)` is modelled at the value level
  as decimal rounding `roundDec 6 v` (Python rounds ties to even; the
  tie case is never exercised by any theorem below).
* A file that hits an `OSError`/`UnicodeDecodeError` is modelled as the
  list of records decoded before the failure point plus a `failAfter`
  flag: the `except` handler in backfill-loki.py returns the events
  accumulated so far, the one in backfill-metrics.py returns `None`.
-/

/-- Python `int(x)`: truncation toward zero. -/
def pyInt (q : ℚ) : ℤ := if 0 ≤ q then ⌊q⌋ else ⌈q⌉

/-- Python truthiness of an optional float (`None` and `0.0` are falsy). -/
def qTruthy : Option ℚ → Bool
  | none => false
  | some q => q != 0

/-- Python truthiness of an optional string (`None` and `""` are falsy). -/
def sTruthy : Option String → Bool
  | none => false
  | some s => s != ""

/-- Decimal rounding to `k` digits: the value denoted by `f"{q:.kf}"`. -/
def roundDec (k : ℕ) (q : ℚ) : ℚ := (round (q * 10 ^ k) : ℤ) / 10 ^ k

/-- Lower-casing, Python `str.lower()` (ASCII; model ids are ASCII). -/
def lowerStr (s : String) : List Char := s.toList.map Char.toLower

/-- Python `needle in hay` substring test. -/
def containsSub (hay needle : List Char) : Bool := decide (List.IsInfix needle hay)

/-- Lexicographic comparison of strings by code point, Python `a <= b`
(used by `list.sort` with a string key). -/
def charListLe : List Char → List Char → Bool
  | [], _ => true
  | _ :: _, [] => false
  | a :: as, b :: bs => if a < b then true else if b < a then false else charListLe as bs

/-- The integer denoted by a decimal string, as produced by Python
`str(int(x))` (used to state numeric order of nanosecond timestamps). -/
def decDigitsVal (cs : List Char) : ℕ := cs.foldl (fun n c => 10 * n + (c.toNat - 48)) 0

/-- Numeric value of a decimal integer string such as `"-5"` or `"1000"`. -/
def decStrVal (s : String) : ℤ :=
  match s.toList with
  | '-' :: cs => -(decDigitsVal cs : ℤ)
  | cs => (decDigitsVal cs : ℤ)

/-- Association-list lookup (Python dict `d[k]` / `k in d`; the scripts
never create duplicate keys). -/
def alookup : List (String × α) → String → Option α
  | [], _ => none
  | (k, v) :: t, key => if k = key then some v else alookup t key

/-- Python dict assignment `d[k] = v`: overwrite in place, else append. -/
def aset : List (String × α) → String → α → List (String × α)
  | [], key, v => [(key, v)]
  | (k, w) :: t, key, v => if k = key then (k, v) :: t else (k, w) :: aset t key v

/-- Python dict `d.pop(k)`: remove the entry with key `k`. -/
def aerase : List (String × α) → String → List (String × α)
  | [], _ => []
  | (k, w) :: t, key => if k = key then t else (k, w) :: aerase t key

/-- Python `set.add` (insertion order is irrelevant to set semantics). -/
def sinsert [DecidableEq α] (l : List α) (x : α) : List α := if x ∈ l then l else l ++ [x]

/-- Python `set.discard`. -/
def sremove [DecidableEq α] (l : List α) (x : α) : List α := l.filter (fun y => y ≠ x)

/-- A `tool_use` block's `input` value: either not a JSON object, or an
object from which the scripts read `command`, `skill`, `old_string`,
`new_string` and `content` (a `none` field is absent or non-string). -/
inductive ToolInput where
  | notDict : ToolInput
  | dict (command skill old_string new_string contentStr : Option String) : ToolInput
deriving DecidableEq

/-- One content block.  Blocks that are not JSON objects and blocks of
any other `type` are skipped identically by both scripts (`other`). -/
inductive Block where
  | toolUse (id : Option String) (name : Option String) (input : ToolInput) : Block
  | toolResult (toolUseId : Option String) (isError : Bool) : Block
  | other : Block
deriving DecidableEq

/-- `message.usage`: each field is `usage.get(key, 0)`.  A missing or
empty (falsy) usage object is `none` at the `Message` level. -/
structure Usage where
  input_tokens : ℕ
  output_tokens : ℕ
  cache_read_input_tokens : ℕ
  cache_creation_input_tokens : ℕ
deriving DecidableEq

/-- `msg.get("content", [])`: a list of blocks (the default `[]` for a
missing key is `blocks []`), or a non-list JSON value. -/
inductive ContentField where
  | notList : ContentField
  | blocks (bs : List Block) : ContentField
deriving DecidableEq

/-- The `message` object (a record whose `message` is missing or not a
dict carries `none` instead). -/
structure Message where
  model : Option String
  usage : Option Usage
  content : ContentField
deriving DecidableEq

/-- One decoded JSONL record. `ts` is the result of `parse_timestamp` on
the `timestamp` field (`none`: missing or unparseable). -/
structure Record where
  type_ : Option String
  ts : Option ℚ
  sessionId : Option String
  message : Option Message
deriving DecidableEq

/-- Structured `tool_parameters` as built by `build_tool_parameters`
(the JSON text rendering is abstracted to its payload). -/
inductive ToolParams where
  | bashCommand (cmd : String) : ToolParams
  | skillName (s : String) : ToolParams
deriving DecidableEq

/-- `build_tool_parameters` (backfill-loki.py lines 59-71). -/
def build_tool_parameters (toolName : String) (input : ToolInput) : Option ToolParams :=
  match input with
  | .notDict => none
  | .dict command skill _ _ _ =>
    if toolName = "Bash" then
      match command with
      | some cmd => some (.bashCommand cmd)
      | none => none
    else if toolName = "Skill" then
      match skill with
      | some sk => some (.skillName sk)
      | none => none
    else none

/-- A pending invocation, `pending_tools[id]` (backfill-loki.py 117-121). -/
structure PendingTool where
  name : String
  input : ToolInput
  timestamp : ℚ
deriving DecidableEq

/-- The `duration_ms` computation (backfill-loki.py lines 140-143):
truncated integer milliseconds, nulled outside `(0, 600000]`. -/
def durationMs (invTs resTs : ℚ) : Option ℤ :=
  let d := pyInt ((resTs - invTs) * 1000)
  if d ≤ 0 ∨ d > 600000 then none else some d

/-- One CorrelatedToolEvent (backfill-loki.py lines 149-157). -/
structure Event where
  timestamp_ns : String
  project : String
  session_id : String
  tool_name : String
  success : Bool
  duration_ms : Option ℤ
  tool_parameters : Option ToolParams
deriving DecidableEq

/-- State of one file's correlation pass: the pending-invocation map and
the events emitted so far. -/
structure LState where
  pending : List (String × PendingTool)
  events : List Event
deriving DecidableEq

/-- Registration of one `tool_use` block (backfill-loki.py 111-121):
a truthy id registers or overwrites a pending invocation. -/
def regBlock (ts : ℚ) (st : LState) (b : Block) : LState :=
  match b with
  | .toolUse (some i) name input =>
    if i = "" then st
    else { st with pending := aset st.pending i ⟨name.getD "unknown", input, ts⟩ }
  | _ => st

/-- Resolution of one `tool_result` block (backfill-loki.py 124-157):
a truthy id present in the pending map pops it and emits one event. -/
def resBlock (proj sid : String) (ts : ℚ) (st : LState) (b : Block) : LState :=
  match b with
  | .toolResult (some i) isErr =>
    if i = "" then st
    else
      match alookup st.pending i with
      | none => st
      | some p =>
        { pending := aerase st.pending i,
          events := st.events ++ [{
            timestamp_ns := toString (pyInt (ts * 1000000000)),
            project := proj,
            session_id := sid,
            tool_name := p.name,
            success := !isErr,
            duration_ms := durationMs p.timestamp ts,
            tool_parameters := build_tool_parameters p.name p.input }] }
  | _ => st

/-- Processing of one record by `extract_tool_events` (backfill-loki.py
88-157): skip on falsy timestamp, non-dict message or non-list content;
scan `tool_use` blocks of assistant records and `tool_result` blocks of
user records. -/
def stepRecord (proj sid : String) (st : LState) (r : Record) : LState :=
  match r.ts with
  | none => st
  | some ts =>
    if ts = 0 then st
    else
      match r.message with
      | none => st
      | some m =>
        match m.content with
        | .notList => st
        | .blocks bs =>
          let st1 := if r.type_ = some "assistant" then bs.foldl (regBlock ts) st else st
          if r.type_ = some "user" then bs.foldl (resBlock proj sid ts) st1 else st1

/-- The record loop of `extract_tool_events`. -/
def runRecords (proj sid : String) : LState → List Record → LState
  | st, [] => st
  | st, r :: rest => runRecords proj sid (stepRecord proj sid st r) rest

/-- `extract_tool_events` on one file's decoded records. -/
def extract_tool_events (proj sid : String) (recs : List Record) : List Event :=
  (runRecords proj sid ⟨[], []⟩ recs).events

/-- `Path(name).stem` on a file name: drop the suffix that starts at
the last dot, provided that dot is neither the first nor the last
character (pathlib's rule). -/
def stemChars (cs : List Char) : List Char :=
  let ext := (cs.reverse.takeWhile (fun ch => ch ≠ '.')).length
  if 1 ≤ ext ∧ 1 ≤ cs.length - 1 - ext then cs.take (cs.length - 1 - ext) else cs

/-- `extract_session_id` (backfill-loki.py 54-56): the stem of the file
name, i.e. the base name with its `.jsonl` extension removed. -/
def extract_session_id (fileName : String) : String := ⟨stemChars fileName.toList⟩

/-- `extract_project_name` (both scripts): the path component following
the first `projects` component, else `"unknown"`. -/
def projAfter : List String → Option String
  | [] => none
  | p :: rest => if p = "projects" then rest.head? else projAfter rest

/-- `extract_project_name` on the path's components. -/
def extract_project_name (parts : List String) : String := (projAfter parts).getD "unknown"

/-- `extract_tool_events` at the file level.  `parts` are the path
components, `lines` the records decoded before any failure point, and
the final `Bool` says whether an `OSError`/`UnicodeDecodeError` follows:
the `except` handler (backfill-loki.py 159-162) only warns and returns
the events accumulated so far. -/
def extract_tool_events_file (parts : List String) (lines : List Record) : Bool → List Event
  | _ =>
    extract_tool_events (extract_project_name parts)
      (extract_session_id ((parts.getLast?).getD "")) lines

/-- The whole-run event list (backfill-loki.py 364-369): concatenation
over the discovered files. -/
def all_tool_events (files : List (List String × List Record × Bool)) : List Event :=
  files.flatMap (fun f => extract_tool_events_file f.1 f.2.1 f.2.2)

/-- Stable ascending sort of one project's events by the `timestamp_ns`
string (backfill-loki.py 176: `sort(key=lambda e: e["timestamp_ns"])`;
Python's sort is stable, and a stable sort is unique, so insertion sort
models it exactly). -/
def sortEventsByTs (l : List Event) : List Event :=
  List.insertionSort (fun a b => charListLe a.timestamp_ns.toList b.timestamp_ns.toList = true) l

/-- `proj_events[i : i + batch_size]` slicing loop (backfill-loki.py
179-180).  `batch_size = 0` would raise in Python; it is modelled as no
batches and every theorem assumes a positive size. -/
def chunksOf (bs : ℕ) (l : List α) : List (List α) :=
  match l with
  | [] => []
  | x :: xs =>
    if h : bs = 0 then []
    else (x :: xs).take bs :: chunksOf bs ((x :: xs).drop bs)
termination_by l.length
decreasing_by
  have hbs : 0 < bs := Nat.pos_of_ne_zero h
  simpa [List.length_drop] using Nat.sub_lt (Nat.succ_pos xs.length) hbs

/-- The batch list pushed for one project label (backfill-loki.py
166-181): filter to the project (grouping via `defaultdict(list)` keeps
file order), sort by the timestamp string, slice into batches. -/
def project_batch_list (events : List Event) (bs : ℕ) (p : String) : List (List Event) :=
  chunksOf bs (sortEventsByTs (events.filter (fun e => e.project = p)))

/-- `push_to_loki`'s full iteration order (`sorted(by_project.items())`):
the distinct project labels in sorted order, each with its batch list.
The dict's keys are deduplicated and then sorted; since sorting by a
total antisymmetric order of distinct keys has a unique result, the
dedup order is irrelevant. -/
def push_to_loki_batches (events : List Event) (bs : ℕ) : List (String × List (List Event)) :=
  (List.insertionSort (fun a b => charListLe a.toList b.toList = true)
      ((events.map (fun e => e.project)).dedup)).map
    (fun p => (p, project_batch_list events bs p))

/-- Per-million-token pricing of one tier (backfill-metrics.py 17-37). -/
structure PricingTier where
  input : ℚ
  output : ℚ
  cacheCreation : ℚ
  cacheRead : ℚ
deriving DecidableEq

/-- `MODEL_PRICING["claude-opus-4"]`. -/
def opusPricing : PricingTier := ⟨15, 75, 75 / 4, 3 / 2⟩

/-- `MODEL_PRICING["claude-sonnet-4"]`. -/
def sonnetPricing : PricingTier := ⟨3, 15, 15 / 4, 3 / 10⟩

/-- `MODEL_PRICING["claude-haiku-4"]`. -/
def haikuPricing : PricingTier := ⟨4 / 5, 4, 1, 2 / 25⟩

/-- `match_pricing` (backfill-metrics.py 40-49). -/
def match_pricing (model_id : String) : PricingTier :=
  if model_id = "" then sonnetPricing
  else if containsSub (lowerStr model_id) "opus".toList then opusPricing
  else if containsSub (lowerStr model_id) "haiku".toList then haikuPricing
  else sonnetPricing

/-- Per-model token tallies; `parse_file` and the merge only ever create
the four categories, each defaulting to zero. -/
structure TokenCounts where
  input : ℕ
  output : ℕ
  cacheRead : ℕ
  cacheCreation : ℕ
deriving DecidableEq

/-- The four token categories. -/
inductive TokenCat where
  | input : TokenCat
  | output : TokenCat
  | cacheRead : TokenCat
  | cacheCreation : TokenCat
deriving DecidableEq

/-- Category projection of a tally. -/
def catCount (tc : TokenCounts) : TokenCat → ℕ
  | .input => tc.input
  | .output => tc.output
  | .cacheRead => tc.cacheRead
  | .cacheCreation => tc.cacheCreation

/-- Zero-defaulting lookup into a two-level token tally
(`tokens[model][category]` with `defaultdict` semantics), used to state
per-model per-category properties. -/
def tokAt (l : List (String × TokenCounts)) (m : String) (cat : TokenCat) : ℕ :=
  match alookup l m with
  | none => 0
  | some tc => catCount tc cat

/-- Cost of one (session, model) pair (backfill-metrics.py 233-240):
the sum over the four categories of `count * rate / 1_000_000`. -/
def cost_of_counts (counts : TokenCounts) (p : PricingTier) : ℚ :=
  counts.input * p.input / 1000000 + counts.output * p.output / 1000000
    + counts.cacheRead * p.cacheRead / 1000000
    + counts.cacheCreation * p.cacheCreation / 1000000

/-- Python word character for `re` patterns (`\w`, ASCII range). -/
def isPyWordChar (c : Char) : Bool := c.isAlpha || c.isDigit || c = '_'

/-- Python whitespace for `re` patterns (`\s`, ASCII range). -/
def isPyWs (c : Char) : Bool :=
  c = ' ' || c = '\t' || c = '\n' || c = '\r' || c = '\x0b' || c = '\x0c'

/-- Literal-prefix stripping for the regex matchers. -/
def stripLit : List Char → List Char → Option (List Char)
  | [], rest => some rest
  | _ :: _, [] => none
  | p :: ps, c :: t => if c = p then stripLit ps t else none

/-- `\s+`: at least one whitespace character (greedy; both patterns
continue with a non-whitespace literal, so greediness is exact). -/
def wsPlus : List Char → Option (List Char)
  | [] => none
  | c :: t => if isPyWs c then some (t.dropWhile isPyWs) else none

/-- Trailing `\b`: end of string or a non-word character. -/
def boundaryOk : List Char → Bool
  | [] => true
  | c :: _ => !isPyWordChar c

/-- `\bgit\s+commit\b` anchored at the current position (`prev` is the
preceding character, if any). -/
def gitCommitAt (prev : Option Char) (cs : List Char) : Bool :=
  (match prev with | none => true | some c => !isPyWordChar c) &&
    (match stripLit "git".toList cs with
     | none => false
     | some r1 =>
       match wsPlus r1 with
       | none => false
       | some r2 =>
         match stripLit "commit".toList r2 with
         | none => false
         | some r3 => boundaryOk r3)

/-- Scan for `_GIT_COMMIT_RE.search`. -/
def gcSearch (prev : Option Char) : List Char → Bool
  | [] => gitCommitAt prev []
  | c :: t => gitCommitAt prev (c :: t) || gcSearch (some c) t

/-- `_GIT_COMMIT_RE.search(cmd)` (backfill-metrics.py line 77). -/
def matchesGitCommit (s : String) : Bool := gcSearch none s.toList

/-- `\bgh\s+pr\s+create\b` anchored at the current position. -/
def ghPrCreateAt (prev : Option Char) (cs : List Char) : Bool :=
  (match prev with | none => true | some c => !isPyWordChar c) &&
    (match stripLit "gh".toList cs with
     | none => false
     | some r1 =>
       match wsPlus r1 with
       | none => false
       | some r2 =>
         match stripLit "pr".toList r2 with
         | none => false
         | some r3 =>
           match wsPlus r3 with
           | none => false
           | some r4 =>
             match stripLit "create".toList r4 with
             | none => false
             | some r5 => boundaryOk r5)

/-- Scan for `_GH_PR_CREATE_RE.search`. -/
def prSearch (prev : Option Char) : List Char → Bool
  | [] => ghPrCreateAt prev []
  | c :: t => ghPrCreateAt prev (c :: t) || prSearch (some c) t

/-- `_GH_PR_CREATE_RE.search(cmd)` (backfill-metrics.py line 78). -/
def matchesGhPrCreate (s : String) : Bool := prSearch none s.toList

/-- `old.count("\n")` etc.: newline count of a string. -/
def countNl (s : String) : ℕ := s.toList.count '\n'

/-- The accumulator of `parse_file` (backfill-metrics.py 83-93). -/
structure PState where
  session_id : Option String
  tokens : List (String × TokenCounts)
  timestamps : List ℚ
  lines_added : ℕ
  lines_removed : ℕ
  pending_commits : List (Option String)
  pending_prs : List (Option String)
  commits : ℕ
  pull_requests : ℕ
deriving DecidableEq

/-- The empty accumulator at file start. -/
def initPState : PState := ⟨none, [], [], 0, 0, [], [], 0, 0⟩

/-- The `tool_result` scan of `parse_file` (lines 124-138), run on every
record's content: a truthy, non-error result confirms a pending commit
or PR id; a falsy id or an error result discards it from both sets. -/
def resBlockM (st : PState) (b : Block) : PState :=
  match b with
  | .toolResult tuid isErr =>
    if sTruthy tuid && !isErr then
      if tuid ∈ st.pending_commits then
        { st with commits := st.commits + 1,
                  pending_commits := sremove st.pending_commits tuid }
      else if tuid ∈ st.pending_prs then
        { st with pull_requests := st.pull_requests + 1,
                  pending_prs := sremove st.pending_prs tuid }
      else st
    else
      { st with pending_commits := sremove st.pending_commits tuid,
                pending_prs := sremove st.pending_prs tuid }
  | _ => st

/-- The `tool_use` scan of `parse_file` (lines 144-169): LOC counting
for Edit/Write, commit/PR pattern registration for Bash.  A missing
`command` defaults to `""`, which matches neither pattern. -/
def useBlockM (st : PState) (b : Block) : PState :=
  match b with
  | .toolUse id name input =>
    match input with
    | .notDict => st
    | .dict command _ old_s new_s contentStr =>
      let nm := name.getD ""
      if nm = "Edit" then
        let st1 :=
          match old_s with
          | some o => if o = "" then st else
              { st with lines_removed := st.lines_removed + (countNl o + 1) }
          | none => st
        match new_s with
        | some nstr => if nstr = "" then st1 else
            { st1 with lines_added := st1.lines_added + (countNl nstr + 1) }
        | none => st1
      else if nm = "Write" then
        match contentStr with
        | some w => if w = "" then st else
            { st with lines_added := st.lines_added + (countNl w + 1) }
        | none => st
      else if nm = "Bash" then
        match command with
        | some cstr =>
          if matchesGitCommit cstr then
            { st with pending_commits := sinsert st.pending_commits id }
          else if matchesGhPrCreate cstr then
            { st with pending_prs := sinsert st.pending_prs id }
          else st
        | none => st
      else st
  | _ => st

/-- Token accounting for one assistant record with truthy usage
(backfill-metrics.py 171-181): all four categories are added (creating
zero entries) under the record's model id, defaulting to `"unknown"`. -/
def addUsage (st : PState) (model : String) (u : Usage) : PState :=
  let cur := (alookup st.tokens model).getD ⟨0, 0, 0, 0⟩
  let tc : TokenCounts :=
    ⟨cur.input + u.input_tokens, cur.output + u.output_tokens,
     cur.cacheRead + u.cache_read_input_tokens,
     cur.cacheCreation + u.cache_creation_input_tokens⟩
  { st with tokens := aset st.tokens model tc }

/-- Session-id capture (backfill-metrics.py 106-109): the first truthy
`sessionId` field wins. -/
def stepSid (st : PState) (r : Record) : PState :=
  if sTruthy st.session_id then st
  else
    match r.sessionId with
    | some s => if s = "" then st else { st with session_id := some s }
    | none => st

/-- Timestamp collection (backfill-metrics.py 111-113): only a truthy
parsed timestamp is appended; the record is not otherwise skipped. -/
def stepTs (st : PState) (r : Record) : PState :=
  match r.ts with
  | some q => if q = 0 then st else { st with timestamps := st.timestamps ++ [q] }
  | none => st

/-- The message-dependent part of `parse_file`'s loop (backfill-metrics.py
115-181): the result scan on every record, then — for assistant records —
the tool-use scan and token accounting. -/
def stepBody (st : PState) (r : Record) : PState :=
  match r.message with
  | none => st
  | some m =>
    match m.content with
    | .notList => st
    | .blocks bs =>
      let st2 := bs.foldl resBlockM st
      if r.type_ ≠ some "assistant" then st2
      else
        let st3 := bs.foldl useBlockM st2
        match m.usage with
        | none => st3
        | some u => addUsage st3 (m.model.getD "unknown") u

/-- Processing of one record by `parse_file` (backfill-metrics.py
96-181), in source order: session-id capture, timestamp collection,
then the message scans. -/
def stepM (st : PState) (r : Record) : PState :=
  stepBody (stepTs (stepSid st r) r) r

/-- The record loop of `parse_file`. -/
def runM : PState → List Record → PState
  | st, [] => st
  | st, r :: rest => runM (stepM st r) rest

/-- A per-file SessionFragment (the dict returned by `parse_file`,
backfill-metrics.py 190-199). -/
structure Fragment where
  session_id : String
  project : String
  tokens : List (String × TokenCounts)
  timestamps : List ℚ
  lines_added : ℕ
  lines_removed : ℕ
  commits : ℕ
  pull_requests : ℕ
deriving DecidableEq

/-- `parse_file` at the file level: `lines` are the records decoded
before any failure point; on failure (`true`) the handler at lines
183-188 warns and returns `None`; otherwise a fragment is returned only
when both the session id and the token dict are truthy. -/
def parse_file (project : String) (lines : List Record) : Bool → Option Fragment
  | true => none
  | false =>
    let st := runM initPState lines
    match st.session_id with
    | none => none
    | some sid =>
      if sid = "" then none
      else if st.tokens = [] then none
      else some ⟨sid, project, st.tokens, st.timestamps, st.lines_added,
        st.lines_removed, st.commits, st.pull_requests⟩

/-- The fresh per-session accumulator (backfill-metrics.py 208-217). -/
def initAcc (pf : Fragment) : Fragment :=
  { session_id := pf.session_id, project := pf.project, tokens := [], timestamps := [],
    lines_added := 0, lines_removed := 0, commits := 0, pull_requests := 0 }

/-- `s["tokens"][model][cat] += count` for the four categories of one
model entry (zero-defaulting two-level dict). -/
def addTok (acc : List (String × TokenCounts)) (m : String) (tc : TokenCounts) :
    List (String × TokenCounts) :=
  let cur := (alookup acc m).getD ⟨0, 0, 0, 0⟩
  aset acc m ⟨cur.input + tc.input, cur.output + tc.output,
    cur.cacheRead + tc.cacheRead, cur.cacheCreation + tc.cacheCreation⟩

/-- Folding one fragment into a session accumulator (backfill-metrics.py
218-226): timestamps concatenate, tokens and counters add. -/
def addFrag (s : Fragment) (pf : Fragment) : Fragment :=
  { s with
    timestamps := s.timestamps ++ pf.timestamps,
    tokens := pf.tokens.foldl (fun a mc => addTok a mc.1 mc.2) s.tokens,
    lines_added := s.lines_added + pf.lines_added,
    lines_removed := s.lines_removed + pf.lines_removed,
    commits := s.commits + pf.commits,
    pull_requests := s.pull_requests + pf.pull_requests }

/-- One iteration of the merge loop (backfill-metrics.py 204-226). -/
def mergeStep (acc : List (String × Fragment)) (pf : Fragment) : List (String × Fragment) :=
  match alookup acc pf.session_id with
  | some s => aset acc pf.session_id (addFrag s pf)
  | none => acc ++ [(pf.session_id, addFrag (initAcc pf) pf)]

/-- The fragment loop of `merge_into_sessions`. -/
def mergeAccum : List (String × Fragment) → List Fragment → List (String × Fragment)
  | acc, [] => acc
  | acc, pf :: rest => mergeAccum (mergeStep acc pf) rest

/-- A canonical Session (backfill-metrics.py 247-259). -/
structure Session where
  session_id : String
  project : String
  tokens : List (String × TokenCounts)
  cost_by_model : List (String × ℚ)
  active_seconds : ℚ
  start_ts : Option ℚ
  end_ts : Option ℚ
  lines_added : ℕ
  lines_removed : ℕ
  commits : ℕ
  pull_requests : ℕ
deriving DecidableEq

/-- Python `min(list)` (left fold; `None` stands for the guarded empty
case `min(ts_list) if ts_list else None`). -/
def listMin : List ℚ → Option ℚ
  | [] => none
  | q :: t => some (t.foldl min q)

/-- Python `max(list)` under the same guard. -/
def listMax : List ℚ → Option ℚ
  | [] => none
  | q :: t => some (t.foldl max q)

/-- Finalisation of one merged session (backfill-metrics.py 229-259):
per-model costs, start/end as min/max of the merged timestamp list, and
`active_seconds = end - start` guarded by Python truthiness of both. -/
def finalize (s : Fragment) : Session :=
  { session_id := s.session_id,
    project := s.project,
    tokens := s.tokens,
    cost_by_model := s.tokens.map (fun mc => (mc.1, cost_of_counts mc.2 (match_pricing mc.1))),
    active_seconds :=
      match listMin s.timestamps, listMax s.timestamps with
      | some a, some b => if a ≠ 0 ∧ b ≠ 0 then b - a else 0
      | _, _ => 0,
    start_ts := listMin s.timestamps,
    end_ts := listMax s.timestamps,
    lines_added := s.lines_added,
    lines_removed := s.lines_removed,
    commits := s.commits,
    pull_requests := s.pull_requests }

/-- `merge_into_sessions` (backfill-metrics.py 202-260). -/
def merge_into_sessions (frags : List Fragment) : List Session :=
  (mergeAccum [] frags).map (fun kv => finalize kv.2)

/-- The `n` of `emit` (backfill-metrics.py line 290):
`n = max(1, int(duration / step)) if duration >= step else 1`, `step = 60`. -/
def emitN (start stop : ℚ) : ℕ :=
  if stop - start ≥ 60 then max 1 (pyInt ((stop - start) / 60)).toNat else 1

/-- The sample generator `emit` of `format_openmetrics` (backfill-metrics.py
287-299), at the value level: `n + 1` samples at `start + duration*i/n`
with values `val * 2i/(2n+1)` (the extrapolation pre-compensation). -/
def emitSamples (val start stop : ℚ) : List (ℚ × ℚ) :=
  (List.range (emitN start stop + 1)).map
    (fun i : ℕ => (start + (stop - start) * (i : ℚ) / (emitN start stop : ℚ),
               val * (2 * (i : ℚ)) / (2 * (emitN start stop : ℚ) + 1)))

/-- The token-usage series for one (session, model, category) label set
(backfill-metrics.py 301-322): omitted unless both endpoints are truthy
and the count is nonzero. -/
def token_series (s : Session) (m : String) (cat : TokenCat) : List (ℚ × ℚ) :=
  match s.start_ts, s.end_ts with
  | some a, some b =>
    if a = 0 ∨ b = 0 then []
    else
      match alookup s.tokens m with
      | none => []
      | some tc =>
        if catCount tc cat = 0 then [] else emitSamples (catCount tc cat) a b
  | _, _ => []

/-- The cost series for one (session, model) label set (backfill-metrics.py
324-343).  The value passed to `emit` is `float(f"{cost:.6f}")`: the cost
rounded to six decimal digits. -/
def cost_series (s : Session) (m : String) : List (ℚ × ℚ) :=
  match s.start_ts, s.end_ts with
  | some a, some b =>
    if a = 0 ∨ b = 0 then []
    else
      match alookup s.cost_by_model m with
      | none => []
      | some c => if c = 0 then [] else emitSamples (roundDec 6 c) a b
  | _, _ => []

/-- The session-count series (backfill-metrics.py 345-360). -/
def session_count_series (s : Session) : List (ℚ × ℚ) :=
  match s.start_ts, s.end_ts with
  | some a, some b => if a = 0 ∨ b = 0 then [] else emitSamples 1 a b
  | _, _ => []

/-- The active-time series (backfill-metrics.py 362-377); the value is
`float(f"{active:.1f}")`, the duration rounded to one decimal digit. -/
def active_time_series (s : Session) : List (ℚ × ℚ) :=
  match s.start_ts, s.end_ts with
  | some a, some b =>
    if a = 0 ∨ b = 0 ∨ s.active_seconds ≤ 0 then []
    else emitSamples (roundDec 1 s.active_seconds) a b
  | _, _ => []

/-- The lines-of-code series for one type label (backfill-metrics.py
379-399). -/
def loc_series (s : Session) (added : Bool) : List (ℚ × ℚ) :=
  match s.start_ts, s.end_ts with
  | some a, some b =>
    if a = 0 ∨ b = 0 then []
    else
      let v := if added then s.lines_added else s.lines_removed
      if v = 0 then [] else emitSamples v a b
  | _, _ => []

/-- The commit-count series (backfill-metrics.py 401-416). -/
def commit_series (s : Session) : List (ℚ × ℚ) :=
  match s.start_ts, s.end_ts with
  | some a, some b =>
    if a = 0 ∨ b = 0 ∨ s.commits = 0 then [] else emitSamples s.commits a b
  | _, _ => []

/-- The pull-request series (backfill-metrics.py 418-433). -/
def pr_series (s : Session) : List (ℚ × ℚ) :=
  match s.start_ts, s.end_ts with
  | some a, some b =>
    if a = 0 ∨ b = 0 ∨ s.pull_requests = 0 then [] else emitSamples s.pull_requests a b
  | _, _ => []

/-- Ghost-instrumented correlation state: `LState` extended with a log
recording, for each emitted event, the correlation id it resolved and the
event's `success` flag.  The instrumented pass erases to the real one
(`runRecordsG_erase`): its `pending` and `events` components are those of
`runRecords`. -/
structure GLState where
  pending : List (String × PendingTool)
  events : List Event
  rlog : List (String × Bool)
deriving DecidableEq

/-- `regBlock` on the instrumented state (the same computation; the log
is untouched). -/
def regBlockG (ts : ℚ) (st : GLState) (b : Block) : GLState :=
  match b with
  | .toolUse (some i) name input =>
    if i = "" then st
    else { st with pending := aset st.pending i ⟨name.getD "unknown", input, ts⟩ }
  | _ => st

/-- `resBlock` on the instrumented state: additionally logs the popped
correlation id together with the emitted event's `success` flag. -/
def resBlockG (proj sid : String) (ts : ℚ) (st : GLState) (b : Block) : GLState :=
  match b with
  | .toolResult (some i) isErr =>
    if i = "" then st
    else
      match alookup st.pending i with
      | none => st
      | some p =>
        { pending := aerase st.pending i,
          events := st.events ++ [{
            timestamp_ns := toString (pyInt (ts * 1000000000)),
            project := proj,
            session_id := sid,
            tool_name := p.name,
            success := !isErr,
            duration_ms := durationMs p.timestamp ts,
            tool_parameters := build_tool_parameters p.name p.input }],
          rlog := st.rlog ++ [(i, !isErr)] }
  | _ => st

/-- `stepRecord` on the instrumented state. -/
def stepRecordG (proj sid : String) (st : GLState) (r : Record) : GLState :=
  match r.ts with
  | none => st
  | some ts =>
    if ts = 0 then st
    else
      match r.message with
      | none => st
      | some m =>
        match m.content with
        | .notList => st
        | .blocks bs =>
          let st1 := if r.type_ = some "assistant" then bs.foldl (regBlockG ts) st else st
          if r.type_ = some "user" then bs.foldl (resBlockG proj sid ts) st1 else st1

/-- The record loop on the instrumented state. -/
def runRecordsG (proj sid : String) : GLState → List Record → GLState
  | st, [] => st
  | st, r :: rest => runRecordsG proj sid (stepRecordG proj sid st r) rest

/-- The blocks the record loop scans for `tool_use` registrations on
record `r`: its content blocks when `r` passes the timestamp, message and
content guards and is assistant-typed; `[]` otherwise. -/
def regScan (r : Record) : List Block :=
  match r.ts with
  | none => []
  | some ts =>
    if ts = 0 then []
    else
      match r.message with
      | none => []
      | some m =>
        match m.content with
        | .notList => []
        | .blocks bs => if r.type_ = some "assistant" then bs else []

/-- The blocks the record loop scans for `tool_result` resolutions on
record `r`: its content blocks when `r` passes the guards and is
user-typed; `[]` otherwise. -/
def resScan (r : Record) : List Block :=
  match r.ts with
  | none => []
  | some ts =>
    if ts = 0 then []
    else
      match r.message with
      | none => []
      | some m =>
        match m.content with
        | .notList => []
        | .blocks bs => if r.type_ = some "user" then bs else []

/-- Does this block register correlation id `c`? (a `tool_use` block
whose `id` field is `c`.) -/
def blockRegisters (c : String) (b : Block) : Bool :=
  match b with
  | .toolUse (some i) _ _ => i = c
  | _ => false

/-- Does this block carry correlation id `c` as a `tool_result`? -/
def blockResolves (c : String) (b : Block) : Bool :=
  match b with
  | .toolResult (some i) _ => i = c
  | _ => false

/-! ## Theorems -/

theorem emitN_pos (start stop : ℚ) : 1 ≤ emitN start stop := by
  unfold emitN
  split
  · exact Nat.le_max_left 1 _
  · exact le_refl 1

theorem pyInt_of_nonneg (q : ℚ) (h : 0 ≤ q) : pyInt q = ⌊q⌋ := by
  simp [pyInt, h]

theorem emitN_int_of_ge (start stop : ℚ) (h : 60 ≤ stop - start) :
    (emitN start stop : ℤ) = ⌊(stop - start) / 60⌋ := by
  have h0 : (0 : ℚ) ≤ (stop - start) / 60 := by positivity
  have h1 : (1 : ℚ) ≤ (stop - start) / 60 := by
    rw [le_div_iff₀ (by norm_num : (0:ℚ) < 60)]
    simpa using h
  have hfl : 1 ≤ ⌊(stop - start) / 60⌋ := by
    rw [Int.le_floor]
    exact_mod_cast h1
  unfold emitN
  rw [if_pos h, pyInt_of_nonneg _ h0]
  have := Int.toNat_of_nonneg (le_trans (by norm_num) hfl)
  omega

/-- C1: for every total value `V` and every defined start/end pair, `emit`
produces exactly `n + 1` samples indexed `i = 0..n`, with
`n = max(1, floor(duration/60))` when `duration ≥ 60` and `n = 1` otherwise,
sample `i` placed at `start + duration * i / n` with value `V * 2i/(2n+1)`;
in particular `start = 0`, `end = 120`, `V = 10` yields samples
`(0, 0), (60, 4), (120, 8)`. -/
theorem C1_emit_sample_placement (val start stop : ℚ) :
    (emitSamples val start stop).length = emitN start stop + 1 ∧
    (60 ≤ stop - start → (emitN start stop : ℤ) = ⌊(stop - start) / 60⌋) ∧
    (¬ 60 ≤ stop - start → emitN start stop = 1) ∧
    (∀ i : ℕ, i ≤ emitN start stop →
      (emitSamples val start stop)[i]? =
        some (start + (stop - start) * i / (emitN start stop),
              val * (2 * i) / (2 * emitN start stop + 1))) ∧
    emitSamples 10 0 120 = [(0, 0), (60, 4), (120, 8)] := by
  refine ⟨?_, ?_, ?_, ?_, ?_⟩
  · simp only [emitSamples, List.length_map, List.length_range]
  · intro h
    exact emitN_int_of_ge start stop h
  · intro h
    unfold emitN
    rw [if_neg (fun hc => h hc)]
  · intro i hi
    have hlt : i < emitN start stop + 1 := Nat.lt_succ_of_le hi
    have hr : (List.range (emitN start stop + 1))[i]? = some i := by
      simp [List.getElem?_range, hlt]
    simp only [emitSamples, List.getElem?_map, hr, Option.map_some']
  · have hN : emitN 0 120 = 2 := by
      norm_num [emitN, pyInt]
      rfl
    simp only [emitSamples, hN]
    norm_num [List.range_succ]

theorem C1_witness : emitSamples 10 0 120 = [(0, 0), (60, 4), (120, 8)] :=
  (C1_emit_sample_placement 10 0 120).2.2.2.2

theorem alookup_map_value (l : List (String × α)) (f : String → α → β) (k : String) :
    alookup (l.map (fun kv => (kv.1, f kv.1 kv.2))) k = (alookup l k).map (f k) := by
  induction l with
  | nil => simp [alookup]
  | cons kv t ih =>
    by_cases h : kv.1 = k
    · simp [alookup, h]
    · simp [alookup, h, ih]

/-- C4: the pricing tier is selected case-insensitively by substring
priority (opus, then haiku, then the sonnet fallback, also for the empty
model id); the cost of a (session, model) pair in a finalized session is
the sum over the four token categories of `count * rate / 1_000_000`; and
an opus model id with 1000 input and 500 output tokens costs 0.0525 USD. -/
theorem C4_pricing_and_cost :
    (∀ m : String, match_pricing m =
      (if containsSub (lowerStr m) "opus".toList then opusPricing
       else if containsSub (lowerStr m) "haiku".toList then haikuPricing
       else sonnetPricing)) ∧
    (∀ counts p, cost_of_counts counts p =
      counts.input * p.input / 1000000 + counts.output * p.output / 1000000
        + counts.cacheRead * p.cacheRead / 1000000
        + counts.cacheCreation * p.cacheCreation / 1000000) ∧
    (∀ (fr : Fragment) (m : String) (tc : TokenCounts), alookup fr.tokens m = some tc →
      alookup (finalize fr).cost_by_model m = some (cost_of_counts tc (match_pricing m))) ∧
    match_pricing "claude-OPUS-4-1-20250805" = opusPricing ∧
    cost_of_counts ⟨1000, 500, 0, 0⟩ (match_pricing "claude-opus-4-1-20250805") = 0.0525 := by
  refine ⟨?_, ?_, ?_, ?_, ?_⟩
  · intro m
    by_cases h : m = ""
    · subst h
      rfl
    · simp [match_pricing, h]
  · intro counts p
    rfl
  · intro fr m tc h
    show alookup (fr.tokens.map
      (fun mc => (mc.1, cost_of_counts mc.2 (match_pricing mc.1)))) m = _
    rw [alookup_map_value fr.tokens (fun k v => cost_of_counts v (match_pricing k)) m, h]
    rfl
  · rfl
  · have h1 : match_pricing "claude-opus-4-1-20250805" = opusPricing := rfl
    rw [h1]
    norm_num [cost_of_counts, opusPricing]

theorem C4_witness :
    alookup (finalize ⟨"s", "p", [("m", ⟨1, 0, 0, 0⟩)], [], 0, 0, 0, 0⟩).cost_by_model "m"
      = some (cost_of_counts ⟨1, 0, 0, 0⟩ (match_pricing "m")) :=
  C4_pricing_and_cost.2.2.1 ⟨"s", "p", [("m", ⟨1, 0, 0, 0⟩)], [], 0, 0, 0, 0⟩ "m"
    ⟨1, 0, 0, 0⟩ (by simp [alookup])

theorem pyInt_floor_ceil (q : ℚ) : pyInt q = ⌊q⌋ ∨ pyInt q = ⌈q⌉ := by
  unfold pyInt
  split
  · exact Or.inl rfl
  · exact Or.inr rfl

/-- C3 (amended): `duration_ms` is the millisecond difference truncated to
an integer, and it is null iff that truncated value lies outside
`(0, 600000]` — equivalently, iff the exact difference is below one
millisecond or at least 600001 milliseconds.  (The claim's condition
`result_ts - invocation_ts ≤ 0 ∨ > 600000 ms` differs on fractional
boundaries: a positive sub-millisecond difference is also nulled.) -/
theorem C3_duration_bounds (invTs resTs : ℚ) :
    (durationMs invTs resTs = none ↔
      (resTs - invTs) * 1000 < 1 ∨ (600001 : ℚ) ≤ (resTs - invTs) * 1000) ∧
    (∀ d : ℤ, durationMs invTs resTs = some d →
      d = ⌊(resTs - invTs) * 1000⌋ ∧ 0 < d ∧ d ≤ 600000) := by
  set q : ℚ := (resTs - invTs) * 1000 with hq
  by_cases h0 : 0 ≤ q
  · have hpy : pyInt q = ⌊q⌋ := pyInt_of_nonneg q h0
    have hiff : (⌊q⌋ ≤ 0 ∨ 600000 < ⌊q⌋) ↔ (q < 1 ∨ (600001 : ℚ) ≤ q) := by
      constructor
      · rintro (h | h)
        · left
          have h1 : ⌊q⌋ < (1 : ℤ) := by omega
          have := Int.floor_lt.mp h1
          exact_mod_cast this
        · right
          have h1 : (600001 : ℤ) ≤ ⌊q⌋ := by omega
          have := Int.le_floor.mp h1
          exact_mod_cast this
      · rintro (h | h)
        · left
          have h1 : ⌊q⌋ < (1 : ℤ) := Int.floor_lt.mpr (by exact_mod_cast h)
          omega
        · right
          have h1 : (600001 : ℤ) ≤ ⌊q⌋ := Int.le_floor.mpr (by exact_mod_cast h)
          omega
    have durEq : durationMs invTs resTs =
        if ⌊q⌋ ≤ 0 ∨ 600000 < ⌊q⌋ then none else some ⌊q⌋ := by
      simp only [durationMs]
      rw [← hq, hpy]
    constructor
    · rw [durEq]
      split_ifs with hc
      · simpa using hiff.mp hc
      · push_neg at hc
        have hl : (1 : ℚ) ≤ q := by
          have h2 := Int.le_floor.mp (by omega : (1 : ℤ) ≤ ⌊q⌋)
          exact_mod_cast h2
        have hu : q < 600001 := by
          have h2 := Int.floor_lt.mp (by omega : ⌊q⌋ < (600001 : ℤ))
          exact_mod_cast h2
        simp only [reduceCtorEq, false_iff]
        push_neg
        exact ⟨by linarith, by linarith⟩
    · intro d hd
      rw [durEq] at hd
      by_cases hc : ⌊q⌋ ≤ 0 ∨ 600000 < ⌊q⌋
      · rw [if_pos hc] at hd
        exact absurd hd (by simp)
      · rw [if_neg hc] at hd
        injection hd with h
        push_neg at hc
        exact ⟨h.symm, by omega, by omega⟩
  · push_neg at h0
    have hpy : pyInt q = ⌈q⌉ := by
      simp [pyInt, not_le.mpr h0]
    have hce : ⌈q⌉ ≤ 0 := Int.ceil_le.mpr (by exact_mod_cast le_of_lt h0)
    have durEq : durationMs invTs resTs = none := by
      simp only [durationMs]
      rw [← hq, hpy, if_pos (Or.inl hce)]
    constructor
    · rw [durEq]
      simp only [true_iff]
      exact Or.inl (lt_trans h0 (by norm_num))
    · intro d hd
      rw [durEq] at hd
      exact absurd hd (by simp)

theorem C3_witness :
    (500 : ℤ) = ⌊(((1 : ℚ)/2) - 0) * 1000⌋ ∧ (0 : ℤ) < 500 ∧ (500 : ℤ) ≤ 600000 :=
  (C3_duration_bounds 0 (1/2)).2 500 (by norm_num [durationMs, pyInt])

/-- C3 counterexample: an invocation at `t = 1 s` answered at
`t = 1 + 1/2000 s` (a positive difference of half a millisecond, inside
`(0, 600000]` ms) still yields a null `duration_ms`, because the code
truncates to whole milliseconds before the guard. -/
theorem C3_counterexample :
    (extract_tool_events "p" "s"
      [⟨some "assistant", some 1, none,
        some ⟨none, none, .blocks [.toolUse (some "a1") (some "Bash") .notDict]⟩⟩,
       ⟨some "user", some (1 + 1/2000), none,
        some ⟨none, none, .blocks [.toolResult (some "a1") false]⟩⟩]).map
        (fun e => e.duration_ms) = [none] ∧
    ¬ ((((1 + 1/2000 : ℚ)) - 1) * 1000 ≤ 0 ∨ (((1 + 1/2000 : ℚ)) - 1) * 1000 > 600000) := by
  constructor
  · norm_num [extract_tool_events, runRecords, stepRecord, regBlock, resBlock,
      alookup, aset, aerase, durationMs, pyInt, build_tool_parameters]
    decide
  · norm_num

theorem emitSamples_pos_mem (val start stop : ℚ) (h : 0 < val) :
    ∃ p ∈ emitSamples val start stop, 0 < p.2 := by
  have hn : (0 : ℚ) < (emitN start stop : ℚ) := by
    exact_mod_cast Nat.lt_of_lt_of_le Nat.zero_lt_one (emitN_pos start stop)
  refine ⟨(start + (stop - start) * (emitN start stop : ℚ) / (emitN start stop : ℚ),
    val * (2 * (emitN start stop : ℚ)) / (2 * (emitN start stop : ℚ) + 1)), ?_, ?_⟩
  · simp only [emitSamples, List.mem_map, List.mem_range]
    exact ⟨emitN start stop, Nat.lt_succ_self _, rfl⟩
  · have hnum : 0 < val * (2 * (emitN start stop : ℚ)) := by positivity
    have hden : 0 < 2 * (emitN start stop : ℚ) + 1 := by positivity
    exact div_pos hnum hden

theorem emitSamples_zero_val (start stop : ℚ) (p : ℚ × ℚ)
    (hp : p ∈ emitSamples 0 start stop) : p.2 = 0 := by
  simp only [emitSamples, List.mem_map, List.mem_range] at hp
  obtain ⟨i, _, hi⟩ := hp
  rw [← hi]
  simp

theorem roundDec_nonneg (k : ℕ) (q : ℚ) (h : 0 ≤ q) : 0 ≤ roundDec k q := by
  unfold roundDec
  apply div_nonneg
  · have h2 : (0 : ℤ) ≤ round (q * 10 ^ k) := by
      rw [round_eq]
      rw [Int.le_floor]
      push_cast
      positivity
    exact_mod_cast h2
  · positivity

theorem alookup_mem (l : List (String × α)) (k : String) (v : α)
    (h : alookup l k = some v) : (k, v) ∈ l := by
  induction l with
  | nil => simp [alookup] at h
  | cons kv t ih =>
    by_cases hk : kv.1 = k
    · simp only [alookup, hk, if_pos] at h
      injection h with h
      have hkv : (k, v) = kv := by
        obtain ⟨k1, v1⟩ := kv
        simp only at hk h
        rw [hk, h]
      rw [hkv]
      exact List.mem_cons_self kv t
    · simp only [alookup, hk, if_neg, ite_false] at h
      exact List.mem_cons_of_mem _ (ih h)

/-- C9 (amended): a series is omitted when the session lacks start and end
or when its value is zero, and every emitted series of the five
integer-valued families contains a strictly positive sample; the cost and
active-time families pass their value through fixed-point formatting
(`f"{v:.6f}"` / `f"{v:.1f}"`), so an emitted series is either positive
somewhere or — when the nonzero value rounds to zero — constant zero. -/
theorem C9_sparse_series (s : Session) (m : String) (cat : TokenCat) (b : Bool)
    (hcost : ∀ mc ∈ s.cost_by_model, 0 ≤ mc.2) :
    (s.start_ts = none → s.end_ts = none →
      token_series s m cat = [] ∧ cost_series s m = [] ∧
      session_count_series s = [] ∧ active_time_series s = [] ∧
      loc_series s b = [] ∧ commit_series s = [] ∧ pr_series s = []) ∧
    (∀ tc, alookup s.tokens m = some tc → catCount tc cat = 0 →
      token_series s m cat = []) ∧
    (alookup s.cost_by_model m = some 0 → cost_series s m = []) ∧
    (s.active_seconds = 0 → active_time_series s = []) ∧
    ((if b then s.lines_added else s.lines_removed) = 0 → loc_series s b = []) ∧
    (s.commits = 0 → commit_series s = []) ∧
    (s.pull_requests = 0 → pr_series s = []) ∧
    (token_series s m cat = [] ∨ ∃ p ∈ token_series s m cat, 0 < p.2) ∧
    (session_count_series s = [] ∨ ∃ p ∈ session_count_series s, 0 < p.2) ∧
    (loc_series s b = [] ∨ ∃ p ∈ loc_series s b, 0 < p.2) ∧
    (commit_series s = [] ∨ ∃ p ∈ commit_series s, 0 < p.2) ∧
    (pr_series s = [] ∨ ∃ p ∈ pr_series s, 0 < p.2) ∧
    (cost_series s m = [] ∨ (∃ p ∈ cost_series s m, 0 < p.2) ∨
      (∃ c, alookup s.cost_by_model m = some c ∧ c ≠ 0 ∧ roundDec 6 c = 0 ∧
        ∀ p ∈ cost_series s m, p.2 = 0)) ∧
    (active_time_series s = [] ∨ (∃ p ∈ active_time_series s, 0 < p.2) ∨
      (0 < s.active_seconds ∧ roundDec 1 s.active_seconds = 0 ∧
        ∀ p ∈ active_time_series s, p.2 = 0)) := by
  refine ⟨?_, ?_, ?_, ?_, ?_, ?_, ?_, ?_, ?_, ?_, ?_, ?_, ?_, ?_⟩
  · intro h1 h2
    refine ⟨?_, ?_, ?_, ?_, ?_, ?_, ?_⟩ <;>
      simp [token_series, cost_series, session_count_series, active_time_series,
        loc_series, commit_series, pr_series, h1, h2]
  · intro tc htc hz
    cases hs : s.start_ts with
    | none => simp [token_series, hs]
    | some a =>
      cases he : s.end_ts with
      | none => simp [token_series, hs, he]
      | some bb => simp [token_series, hs, he, htc, hz]
  · intro hc
    cases hs : s.start_ts with
    | none => simp [cost_series, hs]
    | some a =>
      cases he : s.end_ts with
      | none => simp [cost_series, hs, he]
      | some bb => simp [cost_series, hs, he, hc]
  · intro ha
    cases hs : s.start_ts with
    | none => simp [active_time_series, hs]
    | some a =>
      cases he : s.end_ts with
      | none => simp [active_time_series, hs, he]
      | some bb => simp [active_time_series, hs, he, ha]
  · intro hl
    cases hs : s.start_ts with
    | none => simp [loc_series, hs]
    | some a =>
      cases he : s.end_ts with
      | none => simp [loc_series, hs, he]
      | some bb =>
        cases b with
        | true => simp at hl; simp [loc_series, hs, he, hl]
        | false => simp at hl; simp [loc_series, hs, he, hl]
  · intro hc
    cases hs : s.start_ts with
    | none => simp [commit_series, hs]
    | some a =>
      cases he : s.end_ts with
      | none => simp [commit_series, hs, he]
      | some bb => simp [commit_series, hs, he, hc]
  · intro hp
    cases hs : s.start_ts with
    | none => simp [pr_series, hs]
    | some a =>
      cases he : s.end_ts with
      | none => simp [pr_series, hs, he]
      | some bb => simp [pr_series, hs, he, hp]
  · cases hs : s.start_ts with
    | none => exact Or.inl (by simp [token_series, hs])
    | some a =>
      cases he : s.end_ts with
      | none => exact Or.inl (by simp [token_series, hs, he])
      | some bb =>
        by_cases hab : a = 0 ∨ bb = 0
        · exact Or.inl (by simp [token_series, hs, he, hab])
        · cases htc : alookup s.tokens m with
          | none => exact Or.inl (by simp [token_series, hs, he, hab, htc])
          | some tc =>
            by_cases hz : catCount tc cat = 0
            · exact Or.inl (by simp [token_series, hs, he, htc, hz])
            · right
              have heq : token_series s m cat = emitSamples (catCount tc cat) a bb := by
                simp [token_series, hs, he, hab, htc, hz]
              rw [heq]
              exact emitSamples_pos_mem _ _ _ (by exact_mod_cast Nat.pos_of_ne_zero hz)
  · cases hs : s.start_ts with
    | none => exact Or.inl (by simp [session_count_series, hs])
    | some a =>
      cases he : s.end_ts with
      | none => exact Or.inl (by simp [session_count_series, hs, he])
      | some bb =>
        by_cases hab : a = 0 ∨ bb = 0
        · exact Or.inl (by simp [session_count_series, hs, he, hab])
        · right
          have heq : session_count_series s = emitSamples 1 a bb := by
            simp [session_count_series, hs, he, hab]
          rw [heq]
          exact emitSamples_pos_mem _ _ _ one_pos
  · cases hs : s.start_ts with
    | none => exact Or.inl (by simp [loc_series, hs])
    | some a =>
      cases he : s.end_ts with
      | none => exact Or.inl (by simp [loc_series, hs, he])
      | some bb =>
        by_cases hab : a = 0 ∨ bb = 0
        · exact Or.inl (by simp [loc_series, hs, he, hab])
        · by_cases hz : (if b then s.lines_added else s.lines_removed) = 0
          · exact Or.inl (by cases b <;> simp_all [loc_series, hs, he, hab])
          · right
            have heq : loc_series s b =
                emitSamples (if b then s.lines_added else s.lines_removed) a bb := by
              cases b <;> simp_all [loc_series, hs, he, hab]
            rw [heq]
            exact emitSamples_pos_mem _ _ _ (by exact_mod_cast Nat.pos_of_ne_zero hz)
  · cases hs : s.start_ts with
    | none => exact Or.inl (by simp [commit_series, hs])
    | some a =>
      cases he : s.end_ts with
      | none => exact Or.inl (by simp [commit_series, hs, he])
      | some bb =>
        by_cases hab : a = 0 ∨ bb = 0 ∨ s.commits = 0
        · exact Or.inl (by simp [commit_series, hs, he, hab])
        · right
          push_neg at hab
          have heq : commit_series s = emitSamples s.commits a bb := by
            simp [commit_series, hs, he, hab.1, hab.2.1, hab.2.2]
          rw [heq]
          exact emitSamples_pos_mem _ _ _
            (by exact_mod_cast Nat.pos_of_ne_zero hab.2.2)
  · cases hs : s.start_ts with
    | none => exact Or.inl (by simp [pr_series, hs])
    | some a =>
      cases he : s.end_ts with
      | none => exact Or.inl (by simp [pr_series, hs, he])
      | some bb =>
        by_cases hab : a = 0 ∨ bb = 0 ∨ s.pull_requests = 0
        · exact Or.inl (by simp [pr_series, hs, he, hab])
        · right
          push_neg at hab
          have heq : pr_series s = emitSamples s.pull_requests a bb := by
            simp [pr_series, hs, he, hab.1, hab.2.1, hab.2.2]
          rw [heq]
          exact emitSamples_pos_mem _ _ _
            (by exact_mod_cast Nat.pos_of_ne_zero hab.2.2)
  · cases hs : s.start_ts with
    | none => exact Or.inl (by simp [cost_series, hs])
    | some a =>
      cases he : s.end_ts with
      | none => exact Or.inl (by simp [cost_series, hs, he])
      | some bb =>
        by_cases hab : a = 0 ∨ bb = 0
        · exact Or.inl (by simp [cost_series, hs, he, hab])
        · cases hlk : alookup s.cost_by_model m with
          | none => exact Or.inl (by simp [cost_series, hs, he, hab, hlk])
          | some c =>
            by_cases hc0 : c = 0
            · exact Or.inl (by simp [cost_series, hs, he, hlk, hc0])
            · have heq : cost_series s m = emitSamples (roundDec 6 c) a bb := by
                simp [cost_series, hs, he, hab, hlk, hc0]
              have hcnn : 0 ≤ c := hcost (m, c) (alookup_mem _ _ _ hlk)
              have hrnn : 0 ≤ roundDec 6 c := roundDec_nonneg 6 c hcnn
              rcases lt_or_eq_of_le hrnn with hpos | hzero
              · right; left
                rw [heq]
                exact emitSamples_pos_mem _ _ _ hpos
              · right; right
                refine ⟨c, rfl, hc0, hzero.symm, ?_⟩
                intro p hp
                rw [heq, ← hzero] at hp
                exact emitSamples_zero_val _ _ _ hp
  · cases hs : s.start_ts with
    | none => exact Or.inl (by simp [active_time_series, hs])
    | some a =>
      cases he : s.end_ts with
      | none => exact Or.inl (by simp [active_time_series, hs, he])
      | some bb =>
        by_cases hab : a = 0 ∨ bb = 0 ∨ s.active_seconds ≤ 0
        · exact Or.inl (by simp [active_time_series, hs, he, hab])
        · push_neg at hab
          have heq : active_time_series s = emitSamples (roundDec 1 s.active_seconds) a bb := by
            simp [active_time_series, hs, he, hab.1, hab.2.1, not_le.mpr hab.2.2]
          have hrnn : 0 ≤ roundDec 1 s.active_seconds :=
            roundDec_nonneg 1 _ (le_of_lt hab.2.2)
          rcases lt_or_eq_of_le hrnn with hpos | hzero
          · right; left
            rw [heq]
            exact emitSamples_pos_mem _ _ _ hpos
          · right; right
            refine ⟨hab.2.2, hzero.symm, ?_⟩
            intro p hp
            rw [heq, ← hzero] at hp
            exact emitSamples_zero_val _ _ _ hp

theorem C9_witness :
    token_series ⟨"s", "p", [("m", ⟨5, 0, 0, 0⟩)], [("m", 1)], 120,
        some 100, some 220, 0, 0, 0, 0⟩ "m" TokenCat.input = [] ∨
    ∃ p ∈ token_series ⟨"s", "p", [("m", ⟨5, 0, 0, 0⟩)], [("m", 1)], 120,
        some 100, some 220, 0, 0, 0, 0⟩ "m" TokenCat.input, 0 < p.2 :=
  (C9_sparse_series ⟨"s", "p", [("m", ⟨5, 0, 0, 0⟩)], [("m", 1)], 120,
      some 100, some 220, 0, 0, 0, 0⟩ "m" TokenCat.input true
    (by intro mc hmc; simp at hmc; rw [hmc]; norm_num)).2.2.2.2.2.2.2.1

/-- C9 counterexample: a session holding a single haiku cache-read token
has true cost `0.08 / 1e6 = 8e-8 ≠ 0` USD, so the cost series is emitted,
but `f"{cost:.6f}"` formats it as `0.000000`: the pipeline emits a
constant-zero series, which the claim says never happens. -/
theorem C9_counterexample :
    cost_series (finalize ⟨"s", "p", [("claude-haiku-4-5", ⟨0, 0, 1, 0⟩)],
        [100, 220], 0, 0, 0, 0⟩) "claude-haiku-4-5"
      = [(100, 0), (160, 0), (220, 0)] ∧
    ¬ (cost_series (finalize ⟨"s", "p", [("claude-haiku-4-5", ⟨0, 0, 1, 0⟩)],
        [100, 220], 0, 0, 0, 0⟩) "claude-haiku-4-5" = [] ∨
       ∃ p ∈ cost_series (finalize ⟨"s", "p", [("claude-haiku-4-5", ⟨0, 0, 1, 0⟩)],
        [100, 220], 0, 0, 0, 0⟩) "claude-haiku-4-5", 0 < p.2) := by
  have hmp : match_pricing "claude-haiku-4-5" = haikuPricing := rfl
  have hcost : cost_of_counts ⟨0, 0, 1, 0⟩ haikuPricing = 1 / 12500000 := by
    norm_num [cost_of_counts, haikuPricing]
  have hrd : roundDec 6 (1 / 12500000) = 0 := by
    norm_num [roundDec, round_eq]
  have hN : emitN 100 220 = 2 := by
    norm_num [emitN, pyInt]
    rfl
  have h1 : cost_series (finalize ⟨"s", "p", [("claude-haiku-4-5", ⟨0, 0, 1, 0⟩)],
      [100, 220], 0, 0, 0, 0⟩) "claude-haiku-4-5" = [(100, 0), (160, 0), (220, 0)] := by
    norm_num [cost_series, finalize, listMin, listMax, alookup, min_def, max_def,
      hmp, hcost, emitSamples, hN, hrd, List.range_succ]
  refine ⟨h1, ?_⟩
  rw [h1]
  push_neg
  refine ⟨by simp, ?_⟩
  intro p hp
  fin_cases hp <;> norm_num

theorem resBlockM_frame (st : PState) (b : Block) (X : List ℚ) :
    resBlockM { st with timestamps := X } b = { resBlockM st b with timestamps := X } := by
  obtain ⟨s1, s2, s3, s4, s5, s6, s7, s8, s9⟩ := st
  cases b with
  | toolResult tuid isErr =>
    simp only [resBlockM]
    split_ifs <;> rfl
  | toolUse id name input => rfl
  | other => rfl

theorem useBlockM_frame (st : PState) (b : Block) (X : List ℚ) :
    useBlockM { st with timestamps := X } b = { useBlockM st b with timestamps := X } := by
  obtain ⟨s1, s2, s3, s4, s5, s6, s7, s8, s9⟩ := st
  cases b with
  | toolUse id name input =>
    cases input with
    | notDict => rfl
    | dict command skill old_s new_s contentStr =>
      cases old_s <;> cases new_s <;> cases contentStr <;> cases command <;>
        simp only [useBlockM] <;> split_ifs <;> rfl
  | toolResult tuid isErr => rfl
  | other => rfl

theorem addUsage_frame (st : PState) (model : String) (u : Usage) (X : List ℚ) :
    addUsage { st with timestamps := X } model u = { addUsage st model u with timestamps := X } := by
  obtain ⟨s1, s2, s3, s4, s5, s6, s7, s8, s9⟩ := st
  rfl

theorem foldl_frame (f : PState → Block → PState)
    (hf : ∀ st b X, f { st with timestamps := X } b = { f st b with timestamps := X })
    (bs : List Block) (st : PState) (X : List ℚ) :
    bs.foldl f { st with timestamps := X } = { bs.foldl f st with timestamps := X } := by
  induction bs generalizing st with
  | nil => rfl
  | cons b t ih =>
    simp only [List.foldl_cons, hf st b X]
    exact ih (f st b)

theorem stepBody_frame (st : PState) (r : Record) (X : List ℚ) :
    stepBody { st with timestamps := X } r = { stepBody st r with timestamps := X } := by
  obtain ⟨ty, rts, rsid, msg⟩ := r
  cases msg with
  | none => rfl
  | some m =>
    obtain ⟨mo, us, co⟩ := m
    cases co with
    | notList => rfl
    | blocks bs =>
      have h2 : List.foldl resBlockM { st with timestamps := X } bs =
          { List.foldl resBlockM st bs with timestamps := X } :=
        foldl_frame resBlockM resBlockM_frame bs st X
      simp only [stepBody]
      rw [h2]
      by_cases hty : ty ≠ some "assistant"
      · rw [if_pos hty, if_pos hty]
      · rw [if_neg hty, if_neg hty]
        have h3 : List.foldl useBlockM { List.foldl resBlockM st bs with timestamps := X } bs =
            { List.foldl useBlockM (List.foldl resBlockM st bs) bs with timestamps := X } :=
          foldl_frame useBlockM useBlockM_frame bs (List.foldl resBlockM st bs) X
        rw [h3]
        cases us with
        | none => rfl
        | some u =>
          exact addUsage_frame (List.foldl useBlockM (List.foldl resBlockM st bs) bs)
            (mo.getD "unknown") u X

theorem stepBody_timestamps (st : PState) (r : Record) :
    (stepBody st r).timestamps = st.timestamps := by
  have h := stepBody_frame st r st.timestamps
  calc (stepBody st r).timestamps
      = (stepBody { st with timestamps := st.timestamps } r).timestamps := rfl
    _ = ({ stepBody st r with timestamps := st.timestamps }).timestamps := by rw [h]
    _ = st.timestamps := rfl

theorem stepBody_ts_irrel (st : PState) (r : Record) (t : Option ℚ) :
    stepBody st { r with ts := t } = stepBody st r := rfl

theorem stepSid_ts_irrel (st : PState) (r : Record) (t : Option ℚ) :
    stepSid st { r with ts := t } = stepSid st r := rfl

theorem stepSid_timestamps (st : PState) (r : Record) :
    (stepSid st r).timestamps = st.timestamps := by
  unfold stepSid
  split_ifs with h
  · rfl
  · cases hr : r.sessionId with
    | none => rfl
    | some s =>
      by_cases hs : s = ""
      · simp [hs]
      · simp [hs]

theorem pstate_set_timestamps_self (x : PState) (T : List ℚ) (h : x.timestamps = T) :
    { x with timestamps := T } = x := by
  obtain ⟨x1, x2, x3, x4, x5, x6, x7, x8, x9⟩ := x
  simp only at h
  rw [h]

/-- C7 (amended): a record whose timestamp is missing or unparseable is
skipped entirely by the log pipeline — no event, no pending invocation —
but the metrics pipeline only omits its timestamp: the record still
contributes its session id, token counts, lines of code, commit and
pull-request processing exactly as it would with a valid timestamp. -/
theorem C7_bad_timestamp (proj sid : String) (st : LState) (stM : PState) (r : Record)
    (h : r.ts = none) :
    stepRecord proj sid st r = st ∧
    stepM stM r = { stepM stM { r with ts := some 1 } with timestamps := stM.timestamps } := by
  constructor
  · unfold stepRecord
    rw [h]
  · have hsid : stepSid stM { r with ts := some 1 } = stepSid stM r := stepSid_ts_irrel stM r _
    have hts1 : stepTs (stepSid stM r) { r with ts := some 1 } =
        { stepSid stM r with timestamps := (stepSid stM r).timestamps ++ [1] } := by
      unfold stepTs
      norm_num
    have hts0 : stepTs (stepSid stM r) r = stepSid stM r := by
      unfold stepTs
      rw [h]
    have hbody : stepBody { stepSid stM r with
          timestamps := (stepSid stM r).timestamps ++ [1] } { r with ts := some 1 } =
        { stepBody (stepSid stM r) r with
          timestamps := (stepSid stM r).timestamps ++ [1] } := by
      rw [stepBody_ts_irrel]
      exact stepBody_frame (stepSid stM r) r _
    calc stepM stM r = stepBody (stepTs (stepSid stM r) r) r := rfl
      _ = stepBody (stepSid stM r) r := by rw [hts0]
      _ = { stepBody (stepSid stM r) r with timestamps := stM.timestamps } := by
          refine (pstate_set_timestamps_self _ _ ?_).symm
          rw [stepBody_timestamps, stepSid_timestamps]
      _ = { stepM stM { r with ts := some 1 } with timestamps := stM.timestamps } := by
          show _ = { stepBody (stepTs (stepSid stM { r with ts := some 1 })
            { r with ts := some 1 }) { r with ts := some 1 } with timestamps := stM.timestamps }
          rw [hsid, hts1, hbody]

theorem C7_witness :
    stepRecord "p" "s" ⟨[], []⟩
        ⟨some "assistant", none, some "sess",
          some ⟨some "m", some ⟨5, 0, 0, 0⟩, ContentField.blocks []⟩⟩ = ⟨[], []⟩ ∧
    stepM initPState
        ⟨some "assistant", none, some "sess",
          some ⟨some "m", some ⟨5, 0, 0, 0⟩, ContentField.blocks []⟩⟩ =
      { stepM initPState
          ⟨some "assistant", some 1, some "sess",
            some ⟨some "m", some ⟨5, 0, 0, 0⟩, ContentField.blocks []⟩⟩ with
        timestamps := ([] : List ℚ) } :=
  C7_bad_timestamp "p" "s" ⟨[], []⟩ initPState
    ⟨some "assistant", none, some "sess",
      some ⟨some "m", some ⟨5, 0, 0, 0⟩, ContentField.blocks []⟩⟩ rfl

/-- C7 counterexample: a record with no parseable timestamp but carrying a
session id and token usage is not skipped by the metrics pipeline — the
resulting fragment takes its session id and its five input tokens from
that record, contradicting the claim that such records contribute
nothing. -/
theorem C7_counterexample :
    (parse_file "p"
      [⟨some "assistant", none, some "sess",
        some ⟨some "m", some ⟨5, 0, 0, 0⟩, ContentField.blocks []⟩⟩] false).map
        (fun fr => (fr.session_id, alookup fr.tokens "m"))
      = some ("sess", some ⟨5, 0, 0, 0⟩) ∧
    (⟨some "assistant", none, some "sess",
        some ⟨some "m", some ⟨5, 0, 0, 0⟩, ContentField.blocks []⟩⟩ : Record).ts = none := by
  constructor
  · decide
  · rfl

/-- C8 (amended): a file-level I/O or decoding failure never propagates:
the metrics pipeline drops the whole file's fragment, while the log
pipeline keeps exactly the events extracted from the records decoded
before the failure point (zero only when the failure precedes all
records); other files are unaffected either way. -/
theorem C8_file_failure (parts : List String) (lines : List Record) (project : String)
    (fs1 fs2 : List (List String × List Record × Bool)) :
    extract_tool_events_file parts lines true = extract_tool_events_file parts lines false ∧
    parse_file project lines true = none ∧
    all_tool_events (fs1 ++ (parts, lines, true) :: fs2) =
      all_tool_events fs1 ++ extract_tool_events_file parts lines true ++ all_tool_events fs2 := by
  refine ⟨rfl, rfl, ?_⟩
  simp [all_tool_events]

/-- C8 counterexample: a file whose decode failure happens after a
correlated invocation/result pair still contributes that event — one
event, not the zero events the claim requires. -/
theorem C8_counterexample :
    (extract_tool_events_file ["projects", "proj", "f.jsonl"]
      [⟨some "assistant", some 1, none,
        some ⟨none, none, ContentField.blocks [.toolUse (some "b1") (some "Read") .notDict]⟩⟩,
       ⟨some "user", some 2, none,
        some ⟨none, none, ContentField.blocks [.toolResult (some "b1") false]⟩⟩]
      true).length = 1 := by
  norm_num [extract_tool_events_file, extract_tool_events, runRecords, stepRecord,
    regBlock, resBlock, alookup, aset, aerase, durationMs, pyInt, build_tool_parameters]
  decide

theorem regBlock_events (ts : ℚ) (st : LState) (b : Block) :
    (regBlock ts st b).events = st.events := by
  cases b with
  | toolUse id name input =>
    cases id with
    | none => rfl
    | some i =>
      simp only [regBlock]
      split_ifs <;> rfl
  | toolResult tuid isErr => rfl
  | other => rfl

theorem foldl_regBlock_events (ts : ℚ) (bs : List Block) (st : LState) :
    (bs.foldl (regBlock ts) st).events = st.events := by
  induction bs generalizing st with
  | nil => rfl
  | cons b t ih => rw [List.foldl_cons, ih, regBlock_events]

theorem resBlock_events_cases (proj sid : String) (ts : ℚ) (st : LState) (b : Block) :
    (resBlock proj sid ts st b).events = st.events ∨
    ∃ ev : Event, ev.session_id = sid ∧ ev.project = proj ∧
      (resBlock proj sid ts st b).events = st.events ++ [ev] := by
  cases b with
  | toolResult tuid isErr =>
    cases tuid with
    | none => exact Or.inl rfl
    | some i =>
      by_cases hi : i = ""
      · left
        simp only [resBlock]
        rw [if_pos hi]
      · cases hlk : alookup st.pending i with
        | none =>
          left
          simp only [resBlock]
          rw [if_neg hi, hlk]
        | some p =>
          right
          refine ⟨⟨toString (pyInt (ts * 1000000000)), proj, sid, p.name, !isErr,
            durationMs p.timestamp ts, build_tool_parameters p.name p.input⟩, rfl, rfl, ?_⟩
          simp only [resBlock]
          rw [if_neg hi, hlk]
  | toolUse id name input => exact Or.inl rfl
  | other => exact Or.inl rfl

theorem foldl_resBlock_events_sub (proj sid : String) (ts : ℚ) (bs : List Block) (st : LState) :
    ∀ e ∈ (bs.foldl (resBlock proj sid ts) st).events,
      e ∈ st.events ∨ (e.session_id = sid ∧ e.project = proj) := by
  induction bs generalizing st with
  | nil => exact fun e he => Or.inl he
  | cons b t ih =>
    intro e he
    rw [List.foldl_cons] at he
    rcases ih (resBlock proj sid ts st b) e he with hmem | hsp
    · rcases resBlock_events_cases proj sid ts st b with hcase | ⟨ev, hev1, hev2, hcase⟩
      · rw [hcase] at hmem
        exact Or.inl hmem
      · rw [hcase] at hmem
        rcases List.mem_append.mp hmem with h1 | h1
        · exact Or.inl h1
        · right
          rw [List.mem_singleton.mp h1]
          exact ⟨hev1, hev2⟩
    · exact Or.inr hsp

theorem stepRecord_events_sub (proj sid : String) (st : LState) (r : Record) :
    ∀ e ∈ (stepRecord proj sid st r).events,
      e ∈ st.events ∨ (e.session_id = sid ∧ e.project = proj) := by
  obtain ⟨ty, rts, rsid, msg⟩ := r
  cases rts with
  | none => exact fun e he => Or.inl he
  | some q =>
    by_cases hq : q = 0
    · simp only [stepRecord, if_pos hq]
      exact fun e he => Or.inl he
    · cases msg with
      | none =>
        simp only [stepRecord, if_neg hq]
        exact fun e he => Or.inl he
      | some m =>
        obtain ⟨mo, us, co⟩ := m
        cases co with
        | notList =>
          simp only [stepRecord, if_neg hq]
          exact fun e he => Or.inl he
        | blocks bs =>
          simp only [stepRecord, if_neg hq]
          intro e he
          have hst1 : ((if ty = some "assistant" then bs.foldl (regBlock q) st else st)).events
              = st.events := by
            split_ifs
            · exact foldl_regBlock_events q bs st
            · rfl
          by_cases hu : ty = some "user"
          · rw [if_pos hu] at he
            rcases foldl_resBlock_events_sub proj sid q bs _ e he with h1 | h1
            · rw [hst1] at h1
              exact Or.inl h1
            · exact Or.inr h1
          · rw [if_neg hu] at he
            rw [hst1] at he
            exact Or.inl he

theorem extract_tool_events_labels (proj sid : String) (recs : List Record) :
    ∀ e ∈ extract_tool_events proj sid recs, e.session_id = sid ∧ e.project = proj := by
  suffices h : ∀ (recs2 : List Record) (st : LState),
      (∀ e ∈ st.events, e.session_id = sid ∧ e.project = proj) →
      ∀ e ∈ (runRecords proj sid st recs2).events, e.session_id = sid ∧ e.project = proj by
    exact fun e he => h recs ⟨[], []⟩ (by simp) e he
  intro recs2
  induction recs2 with
  | nil => exact fun st hst e he => hst e he
  | cons r t ih =>
    intro st hst e he
    refine ih (stepRecord proj sid st r) ?_ e he
    intro e2 he2
    rcases stepRecord_events_sub proj sid st r e2 he2 with h1 | h1
    · exact hst e2 h1
    · exact h1

theorem stepRecord_sid_irrel (proj sid : String) (st : LState) (r : Record) (x : Option String) :
    stepRecord proj sid st { r with sessionId := x } = stepRecord proj sid st r := rfl

theorem extract_tool_events_sid_irrel (proj sid : String) (recs : List Record)
    (g : Record → Option String) :
    extract_tool_events proj sid (recs.map (fun r => { r with sessionId := g r })) =
      extract_tool_events proj sid recs := by
  unfold extract_tool_events
  suffices h : ∀ st, runRecords proj sid st (recs.map (fun r => { r with sessionId := g r })) =
      runRecords proj sid st recs by
    rw [h]
  induction recs with
  | nil => exact fun st => rfl
  | cons r t ih =>
    intro st
    show runRecords proj sid (stepRecord proj sid st { r with sessionId := g r })
        (t.map (fun r2 => { r2 with sessionId := g r2 })) = _
    rw [stepRecord_sid_irrel]
    exact ih (stepRecord proj sid st r)

theorem resBlockM_session_id (st : PState) (b : Block) :
    (resBlockM st b).session_id = st.session_id := by
  cases b with
  | toolResult tuid isErr =>
    simp only [resBlockM]
    split_ifs <;> rfl
  | toolUse id name input => rfl
  | other => rfl

theorem useBlockM_session_id (st : PState) (b : Block) :
    (useBlockM st b).session_id = st.session_id := by
  cases b with
  | toolUse id name input =>
    cases input with
    | notDict => rfl
    | dict command skill old_s new_s contentStr =>
      cases old_s <;> cases new_s <;> cases contentStr <;> cases command <;>
        simp only [useBlockM] <;> split_ifs <;> rfl
  | toolResult tuid isErr => rfl
  | other => rfl

theorem foldl_preserves_session_id (f : PState → Block → PState)
    (hf : ∀ st b, (f st b).session_id = st.session_id) (bs : List Block) (st : PState) :
    (bs.foldl f st).session_id = st.session_id := by
  induction bs generalizing st with
  | nil => rfl
  | cons b t ih => rw [List.foldl_cons, ih (f st b), hf]

theorem stepBody_session_id (st : PState) (r : Record) :
    (stepBody st r).session_id = st.session_id := by
  obtain ⟨ty, rts, rsid, msg⟩ := r
  cases msg with
  | none => rfl
  | some m =>
    obtain ⟨mo, us, co⟩ := m
    cases co with
    | notList => rfl
    | blocks bs =>
      simp only [stepBody]
      by_cases hty : ty ≠ some "assistant"
      · rw [if_pos hty]
        exact foldl_preserves_session_id resBlockM resBlockM_session_id bs st
      · rw [if_neg hty]
        have h1 : (bs.foldl resBlockM st).session_id = st.session_id :=
          foldl_preserves_session_id resBlockM resBlockM_session_id bs st
        have h2 : (bs.foldl useBlockM (bs.foldl resBlockM st)).session_id = st.session_id := by
          rw [foldl_preserves_session_id useBlockM useBlockM_session_id bs _, h1]
        cases us with
        | none => exact h2
        | some u =>
          show (addUsage (bs.foldl useBlockM (bs.foldl resBlockM st)) (mo.getD "unknown") u).session_id = _
          rw [show ∀ (x : PState) (mo2 : String) (u2 : Usage),
            (addUsage x mo2 u2).session_id = x.session_id from fun x mo2 u2 => rfl, h2]

theorem stepTs_session_id (st : PState) (r : Record) :
    (stepTs st r).session_id = st.session_id := by
  unfold stepTs
  cases r.ts with
  | none => rfl
  | some q =>
    by_cases hq : q = 0
    · simp [hq]
    · simp [hq]

theorem stepM_session_id (st : PState) (r : Record) :
    (stepM st r).session_id = (stepSid st r).session_id := by
  unfold stepM
  rw [stepBody_session_id, stepTs_session_id]

theorem runM_session_id (lines : List Record) (st : PState) :
    (runM st lines).session_id =
      (if sTruthy st.session_id then st.session_id
       else
         match lines.findSome? (fun r => match r.sessionId with
           | some s => if s = "" then none else some s
           | none => none) with
         | some s => some s
         | none => st.session_id) := by
  induction lines generalizing st with
  | nil =>
    show st.session_id = _
    split_ifs <;> rfl
  | cons r t ih =>
    show (runM (stepM st r) t).session_id = _
    rw [ih (stepM st r)]
    by_cases hst : sTruthy st.session_id
    · have h1 : (stepM st r).session_id = st.session_id := by
        rw [stepM_session_id]
        unfold stepSid
        rw [if_pos hst]
      rw [h1, if_pos hst, if_pos hst]
    · cases hr : r.sessionId with
      | none =>
        have h1 : (stepM st r).session_id = st.session_id := by
          rw [stepM_session_id]
          unfold stepSid
          rw [if_neg hst, hr]
        rw [h1, if_neg hst, if_neg hst]
        simp [List.findSome?_cons, hr]
      | some s =>
        by_cases hs : s = ""
        · have h1 : (stepM st r).session_id = st.session_id := by
            rw [stepM_session_id]
            unfold stepSid
            rw [if_neg hst, hr]
            simp [hs]
          rw [h1, if_neg hst, if_neg hst]
          simp [List.findSome?_cons, hr, hs]
        · have h1 : (stepM st r).session_id = some s := by
            rw [stepM_session_id]
            unfold stepSid
            rw [if_neg hst, hr]
            simp [hs]
          have h2 : sTruthy (some s) = true := by
            simp [sTruthy, hs]
          rw [h1, if_pos h2, if_neg hst]
          simp [List.findSome?_cons, hr, hs]

theorem string_toList_ne_nil (s : String) (hs : s ≠ "") : s.toList ≠ [] :=
  fun hnil => hs (congrArg String.mk hnil)

theorem extract_session_id_jsonl (s : String) (hs : s ≠ "") :
    extract_session_id (s ++ ".jsonl") = s := by
  have hlist : (s ++ ".jsonl").toList = s.toList ++ ['.', 'j', 's', 'o', 'n', 'l'] := by
    show (s ++ ".jsonl").data = s.data ++ ['.', 'j', 's', 'o', 'n', 'l']
    rw [String.data_append]
  have hrev : (s.toList ++ ['.', 'j', 's', 'o', 'n', 'l']).reverse =
      'l' :: 'n' :: 'o' :: 's' :: 'j' :: '.' :: s.toList.reverse := by
    rw [List.reverse_append]
    rfl
  have htw : ('l' :: 'n' :: 'o' :: 's' :: 'j' :: '.' :: s.toList.reverse).takeWhile
      (fun ch => ch ≠ '.') = ['l', 'n', 'o', 's', 'j'] := rfl
  have hne : s.toList ≠ [] := string_toList_ne_nil s hs
  have hn : 1 ≤ s.toList.length := List.length_pos.mpr hne
  unfold extract_session_id stemChars
  rw [hlist, hrev, htw]
  have hlen : (s.toList ++ ['.', 'j', 's', 'o', 'n', 'l']).length = s.toList.length + 6 := by
    simp
  rw [hlen]
  have hcond : 1 ≤ (['l', 'n', 'o', 's', 'j'] : List Char).length ∧
      1 ≤ s.toList.length + 6 - 1 - (['l', 'n', 'o', 's', 'j'] : List Char).length := by
    constructor
    · norm_num
    · simp only [List.length_cons, List.length_nil]
      omega
  rw [if_pos hcond]
  have harith : s.toList.length + 6 - 1 - (['l', 'n', 'o', 's', 'j'] : List Char).length
      = s.toList.length := by
    simp only [List.length_cons, List.length_nil]
    omega
  rw [harith, List.take_left]
  cases s with
  | mk d => rfl

/-- C10 (amended): in the log pipeline each event's session id is the file
base name with the `.jsonl` extension removed, independent of any
`sessionId` fields in the records; the metrics pipeline instead takes the
session id from the first record whose `sessionId` field is present and
non-empty (not merely the first record carrying the field). -/
theorem C10_session_id_sources (parts : List String) (lines : List Record)
    (s : String) (hs : s ≠ "") (g : Record → Option String) (project : String) :
    extract_session_id (s ++ ".jsonl") = s ∧
    (∀ e ∈ extract_tool_events_file parts lines false,
      e.session_id = extract_session_id ((parts.getLast?).getD "")) ∧
    extract_tool_events_file parts (lines.map (fun r => { r with sessionId := g r })) false =
      extract_tool_events_file parts lines false ∧
    (∀ fr : Fragment, parse_file project lines false = some fr →
      lines.findSome? (fun r => match r.sessionId with
        | some s2 => if s2 = "" then none else some s2
        | none => none) = some fr.session_id) := by
  refine ⟨extract_session_id_jsonl s hs, ?_, ?_, ?_⟩
  · intro e he
    exact (extract_tool_events_labels (extract_project_name parts)
      (extract_session_id ((parts.getLast?).getD "")) lines e he).1
  · exact extract_tool_events_sid_irrel _ _ lines g
  · intro fr hfr
    have hrun := runM_session_id lines initPState
    have hfalse : sTruthy initPState.session_id = false := rfl
    rw [hfalse] at hrun
    simp only [Bool.false_eq_true, if_false] at hrun
    simp only [parse_file] at hfr
    split at hfr
    · exact absurd hfr (by simp)
    · rename_i sid hsid
      split_ifs at hfr with h1 h2
      have hfrs : fr.session_id = sid := by
        injection hfr with h3
        exact (congrArg Fragment.session_id h3).symm
      rw [hsid] at hrun
      cases hfind : lines.findSome? (fun r => match r.sessionId with
        | some s2 => if s2 = "" then none else some s2
        | none => none) with
      | none =>
        rw [hfind] at hrun
        simp [initPState] at hrun
      | some s2 =>
        rw [hfind] at hrun
        have h4 : sid = s2 := by
          injection hrun
        rw [hfrs, h4]

theorem C10_witness : extract_session_id ("abc" ++ ".jsonl") = "abc" :=
  (C10_session_id_sources [] [] "abc" (by decide) (fun _ => none) "p").1

/-- C10 counterexample: the first record carries a `sessionId` field whose
value is the empty string; the metrics pipeline nevertheless takes the
session id from the second record, so the fragment's id is `"b"`, not the
first field-carrying record's value. -/
theorem C10_counterexample :
    (parse_file "p"
      [⟨none, none, some "", none⟩,
       ⟨some "assistant", none, some "b",
        some ⟨some "m", some ⟨1, 0, 0, 0⟩, ContentField.blocks []⟩⟩]
      false).map (fun fr => fr.session_id) = some "b" ∧
    (⟨none, none, some "", none⟩ : Record).sessionId = some "" := by
  constructor
  · decide
  · rfl

theorem charListLe_refl (a : List Char) : charListLe a a = true := by
  induction a with
  | nil => rfl
  | cons x xs ih => simp [charListLe, lt_irrefl, ih]

theorem charListLe_total (a b : List Char) :
    charListLe a b = true ∨ charListLe b a = true := by
  induction a generalizing b with
  | nil => exact Or.inl rfl
  | cons x xs ih =>
    cases b with
    | nil => exact Or.inr rfl
    | cons y ys =>
      rcases lt_trichotomy x y with h | h | h
      · left
        simp [charListLe, h]
      · subst h
        rcases ih ys with h2 | h2
        · left
          simp [charListLe, lt_irrefl, h2]
        · right
          simp [charListLe, lt_irrefl, h2]
      · right
        simp [charListLe, h]

theorem charListLe_trans (a b c : List Char) (h1 : charListLe a b = true)
    (h2 : charListLe b c = true) : charListLe a c = true := by
  induction a generalizing b c with
  | nil => rfl
  | cons x xs ih =>
    cases b with
    | nil => simp [charListLe] at h1
    | cons y ys =>
      cases c with
      | nil => simp [charListLe] at h2
      | cons z zs =>
        by_cases hxy : x < y
        · by_cases hyz : y < z
          · simp [charListLe, lt_trans hxy hyz]
          · by_cases hzy : z < y
            · simp [charListLe, hyz, hzy] at h2
            · have hyz2 : y = z := le_antisymm (le_of_not_lt hzy) (le_of_not_lt hyz)
              subst hyz2
              simp [charListLe, hxy]
        · by_cases hyx : y < x
          · simp [charListLe, hxy, hyx] at h1
          · have hxy2 : x = y := le_antisymm (le_of_not_lt hyx) (le_of_not_lt hxy)
            subst hxy2
            simp only [charListLe, lt_irrefl, if_false] at h1
            by_cases hxz : x < z
            · simp [charListLe, hxz]
            · by_cases hzx : z < x
              · simp only [charListLe, lt_irrefl, if_false, hzx, if_true, hxz] at h2
                exact Bool.noConfusion h2
              · have hxz2 : x = z := le_antisymm (le_of_not_lt hzx) (le_of_not_lt hxz)
                subst hxz2
                simp only [charListLe, lt_irrefl, if_false] at h2 ⊢
                exact ih ys zs h1 h2

theorem sortEventsByTs_sorted (l : List Event) :
    List.Pairwise (fun a b : Event =>
      charListLe a.timestamp_ns.toList b.timestamp_ns.toList = true) (sortEventsByTs l) := by
  haveI htot : IsTotal Event (fun a b : Event =>
      charListLe a.timestamp_ns.toList b.timestamp_ns.toList = true) :=
    ⟨fun a b => charListLe_total a.timestamp_ns.toList b.timestamp_ns.toList⟩
  haveI htr : IsTrans Event (fun a b : Event =>
      charListLe a.timestamp_ns.toList b.timestamp_ns.toList = true) :=
    ⟨fun a b c => charListLe_trans a.timestamp_ns.toList b.timestamp_ns.toList
      c.timestamp_ns.toList⟩
  exact List.sorted_insertionSort _ l

theorem sortEventsByTs_perm (l : List Event) : (sortEventsByTs l).Perm l :=
  List.perm_insertionSort _ l

theorem chunksOf_flatten_aux (bs : ℕ) (hbs : 0 < bs) :
    ∀ (n : ℕ) (l : List α), l.length ≤ n → (chunksOf bs l).flatten = l := by
  intro n
  induction n with
  | zero =>
    intro l hl
    have h0 : l = [] := List.eq_nil_of_length_eq_zero (Nat.le_zero.mp hl)
    subst h0
    simp [chunksOf]
  | succ n ih =>
    intro l hl
    match l with
    | [] => simp [chunksOf]
    | x :: xs =>
      rw [chunksOf]
      rw [dif_neg (Nat.pos_iff_ne_zero.mp hbs)]
      rw [List.flatten_cons]
      rw [ih ((x :: xs).drop bs) (by simp at hl ⊢; omega)]
      exact List.take_append_drop bs (x :: xs)

theorem chunksOf_flatten (bs : ℕ) (hbs : 0 < bs) (l : List α) :
    (chunksOf bs l).flatten = l :=
  chunksOf_flatten_aux bs hbs l.length l le_rfl

theorem chunksOf_sizes_aux (bs : ℕ) (hbs : 0 < bs) :
    ∀ (n : ℕ) (l : List α), l.length ≤ n →
      ∀ c ∈ chunksOf bs l, c.length ≤ bs ∧ c ≠ [] := by
  intro n
  induction n with
  | zero =>
    intro l hl c hc
    have h0 : l = [] := List.eq_nil_of_length_eq_zero (Nat.le_zero.mp hl)
    subst h0
    simp [chunksOf] at hc
  | succ n ih =>
    intro l hl c hc
    match l with
    | [] => simp [chunksOf] at hc
    | x :: xs =>
      rw [chunksOf, dif_neg (Nat.pos_iff_ne_zero.mp hbs)] at hc
      rcases List.mem_cons.mp hc with h1 | h1
      · subst h1
        constructor
        · simpa using Nat.min_le_left bs (xs.length + 1)
        · have : (x :: xs).take bs ≠ [] := by
            have h2 : ((x :: xs).take bs).length = min bs (xs.length + 1) := by simp
            intro hnil
            rw [hnil] at h2
            simp at h2
            omega
          exact this
      · exact ih ((x :: xs).drop bs) (by simp at hl ⊢; omega) c h1

theorem chunksOf_last_aux (bs : ℕ) (hbs : 0 < bs) :
    ∀ (n : ℕ) (l : List α), l.length ≤ n →
      ∀ c ∈ (chunksOf bs l).dropLast, c.length = bs := by
  intro n
  induction n with
  | zero =>
    intro l hl c hc
    have h0 : l = [] := List.eq_nil_of_length_eq_zero (Nat.le_zero.mp hl)
    subst h0
    simp [chunksOf] at hc
  | succ n ih =>
    intro l hl c hc
    match l with
    | [] => simp [chunksOf] at hc
    | x :: xs =>
      rw [chunksOf, dif_neg (Nat.pos_iff_ne_zero.mp hbs)] at hc
      cases hrest : chunksOf bs ((x :: xs).drop bs) with
      | nil =>
        rw [hrest] at hc
        simp at hc
      | cons c2 cs =>
        rw [hrest] at hc
        rw [List.dropLast_cons_of_ne_nil (by simp)] at hc
        rcases List.mem_cons.mp hc with h1 | h1
        · subst h1
          have hdrop : (x :: xs).drop bs ≠ [] := by
            intro hnil
            rw [hnil] at hrest
            simp [chunksOf] at hrest
          have hlen : bs < (x :: xs).length := by
            by_contra hcon
            push_neg at hcon
            exact hdrop (List.drop_eq_nil_of_le hcon)
          simp only [List.length_cons] at hlen
          simp [List.length_take]
          omega
        · have h2 := ih ((x :: xs).drop bs) (by simp at hl ⊢; omega) c
          rw [hrest] at h2
          exact h2 h1

/-- C6 (amended): `push_to_loki` partitions the events into per-project
groups (each group is a permutation of the events carrying that label),
splits each group into consecutive batches of at most `batch_size` with
every batch nonempty and only the final batch smaller, and every event's
project appears among the pushed groups; within a group the pushed
sequence is sorted ascending by the *string* field `timestamp_ns`
(lexicographically) — not by the numeric nanosecond timestamp, which
lexicographic order contradicts when digit counts differ. -/
theorem C6_push_grouping (events : List Event) (bs : ℕ) (p : String) (hbs : 0 < bs) :
    ((project_batch_list events bs p).flatten).Perm
      (events.filter (fun e => e.project = p)) ∧
    List.Pairwise (fun a b : Event =>
      charListLe a.timestamp_ns.toList b.timestamp_ns.toList = true)
      ((project_batch_list events bs p).flatten) ∧
    (∀ c ∈ project_batch_list events bs p, c.length ≤ bs ∧ c ≠ []) ∧
    (∀ c ∈ (project_batch_list events bs p).dropLast, c.length = bs) ∧
    (∀ e ∈ events, e.project ∈ (push_to_loki_batches events bs).map Prod.fst) ∧
    (project_batch_list events bs p).flatten =
      sortEventsByTs (events.filter (fun e => e.project = p)) := by
  have hfl : (project_batch_list events bs p).flatten =
      sortEventsByTs (events.filter (fun e => e.project = p)) :=
    chunksOf_flatten bs hbs _
  refine ⟨?_, ?_, ?_, ?_, ?_, hfl⟩
  · rw [hfl]
    exact sortEventsByTs_perm _
  · rw [hfl]
    exact sortEventsByTs_sorted _
  · exact chunksOf_sizes_aux bs hbs _ _ le_rfl
  · exact chunksOf_last_aux bs hbs _ _ le_rfl
  · intro e he
    unfold push_to_loki_batches
    rw [List.map_map]
    have h1 : e.project ∈ (events.map (fun e2 => e2.project)).dedup :=
      List.mem_dedup.mpr (List.mem_map_of_mem _ he)
    have h2 : e.project ∈ List.insertionSort
        (fun a b => charListLe a.toList b.toList = true)
        ((events.map (fun e2 => e2.project)).dedup) :=
      (List.perm_insertionSort _ _).mem_iff.mpr h1
    have h3 : (Prod.fst ∘ fun p2 => (p2, project_batch_list events bs p2)) = id := rfl
    rw [h3, List.map_id]
    exact h2

/-- C6 counterexample: two events of one project at 0.999 s and 1.0 s
epoch; their nanosecond timestamps render as the strings `"999000000"`
and `"1000000000"`, and the sort key is the string, so the pushed order
is 1.0 s before 0.999 s — descending, not ascending, in numeric time. -/
theorem C6_counterexample :
    sortEventsByTs
        [⟨"999000000", "p", "s", "T", true, none, none⟩,
         ⟨"1000000000", "p", "s", "T", true, none, none⟩] =
      [⟨"1000000000", "p", "s", "T", true, none, none⟩,
       ⟨"999000000", "p", "s", "T", true, none, none⟩] ∧
    decStrVal "1000000000" > decStrVal "999000000" := by
  constructor
  · decide
  · decide

theorem C6_witness :
    (project_batch_list [⟨"1", "p", "s", "T", true, none, none⟩] 1 "p").flatten =
      sortEventsByTs ([⟨"1", "p", "s", "T", true, none, none⟩].filter
        (fun e => e.project = "p")) :=
  (C6_push_grouping [⟨"1", "p", "s", "T", true, none, none⟩] 1 "p" (by decide)).2.2.2.2.2

theorem alookup_aset (l : List (String × α)) (k k2 : String) (v : α) :
    alookup (aset l k v) k2 = if k2 = k then some v else alookup l k2 := by
  induction l with
  | nil =>
    show alookup [(k, v)] k2 = _
    simp only [alookup]
    by_cases h : k = k2
    · rw [if_pos h, if_pos h.symm]
    · rw [if_neg h, if_neg (fun hc => h hc.symm)]
  | cons kv t ih =>
    obtain ⟨ek, ev⟩ := kv
    by_cases h1 : ek = k
    · subst h1
      have ha : aset ((ek, ev) :: t) ek v = (ek, v) :: t := by
        simp [aset]
      rw [ha]
      simp only [alookup]
      by_cases h2 : ek = k2
      · rw [if_pos h2, if_pos h2.symm]
      · rw [if_neg h2, if_neg (fun hc : k2 = ek => h2 hc.symm), if_neg h2]
    · have ha : aset ((ek, ev) :: t) k v = (ek, ev) :: aset t k v := by
        simp [aset, h1]
      rw [ha]
      simp only [alookup]
      by_cases h2 : ek = k2
      · subst h2
        rw [if_pos rfl, if_neg (fun hc : ek = k => h1 hc), if_pos rfl]
      · rw [if_neg h2, ih]
        by_cases h3 : k2 = k
        · rw [if_pos h3, if_pos h3]
        · rw [if_neg h3, if_neg h3, if_neg h2]

theorem alookup_concat (l : List (String × α)) (k k2 : String) (v : α) :
    alookup (l ++ [(k, v)]) k2 =
      match alookup l k2 with
      | some w => some w
      | none => if k = k2 then some v else none := by
  induction l with
  | nil => simp [alookup]
  | cons kv t ih =>
    by_cases h : kv.1 = k2
    · simp [alookup, h]
    · simp [alookup, h, ih]

theorem mergeStep_lookup (acc : List (String × Fragment)) (pf : Fragment) (sid : String) :
    alookup (mergeStep acc pf) sid =
      if pf.session_id = sid then
        some (match alookup acc sid with
          | some s => addFrag s pf
          | none => addFrag (initAcc pf) pf)
      else alookup acc sid := by
  unfold mergeStep
  cases halk : alookup acc pf.session_id with
  | some s =>
    rw [alookup_aset]
    by_cases h : pf.session_id = sid
    · subst h
      rw [if_pos rfl, if_pos rfl, halk]
    · rw [if_neg (fun hc => h hc.symm), if_neg h]
  | none =>
    rw [alookup_concat]
    by_cases h : pf.session_id = sid
    · subst h
      rw [halk]
    · cases h2 : alookup acc sid with
      | some w => simp [h]
      | none => simp [h]

theorem mergeAccum_lookup (frags : List Fragment) (acc : List (String × Fragment))
    (sid : String) :
    alookup (mergeAccum acc frags) sid =
      match alookup acc sid, frags.filter (fun f => f.session_id = sid) with
      | some a, F => some (F.foldl addFrag a)
      | none, [] => none
      | none, f :: F2 => some (F2.foldl addFrag (addFrag (initAcc f) f)) := by
  induction frags generalizing acc with
  | nil =>
    cases halk : alookup acc sid <;> simp [mergeAccum, halk]
  | cons pf rest ih =>
    show alookup (mergeAccum (mergeStep acc pf) rest) sid = _
    rw [ih (mergeStep acc pf), mergeStep_lookup]
    by_cases h : pf.session_id = sid
    · rw [if_pos h]
      have hf : (pf :: rest).filter (fun f => f.session_id = sid) =
          pf :: rest.filter (fun f => f.session_id = sid) := by
        simp [List.filter_cons, h]
      rw [hf]
      cases halk : alookup acc sid with
      | some a => simp [List.foldl_cons]
      | none => simp [List.foldl_cons]
    · rw [if_neg h]
      have hf : (pf :: rest).filter (fun f => f.session_id = sid) =
          rest.filter (fun f => f.session_id = sid) := by
        simp [List.filter_cons, h]
      rw [hf]

theorem aset_keys (l : List (String × α)) (k : String) (v w : α)
    (h : alookup l k = some w) : (aset l k v).map Prod.fst = l.map Prod.fst := by
  induction l with
  | nil => simp [alookup] at h
  | cons kv t ih =>
    obtain ⟨ek, ev⟩ := kv
    by_cases h1 : ek = k
    · simp [aset, h1]
    · simp only [alookup, h1, if_neg, ite_false] at h
      simp [aset, h1, ih h]

theorem alookup_eq_none (l : List (String × α)) (k : String) :
    alookup l k = none ↔ k ∉ l.map Prod.fst := by
  induction l with
  | nil => simp [alookup]
  | cons kv t ih =>
    by_cases h : kv.1 = k
    · simp [alookup, h]
    · rw [show alookup (kv :: t) k = alookup t k from by simp [alookup, h]]
      rw [ih]
      constructor
      · intro hn hc
        rcases List.mem_cons.mp hc with h2 | h2
        · exact h h2.symm
        · exact hn h2
      · intro hn h2
        exact hn (List.mem_cons_of_mem _ h2)

theorem mem_aset (l : List (String × α)) (k : String) (v : α) (kv : String × α)
    (h : kv ∈ aset l k v) : kv ∈ l ∨ (kv.1 = k ∧ kv.2 = v) := by
  induction l with
  | nil =>
    simp [aset] at h
    right
    rw [h]
    exact ⟨rfl, rfl⟩
  | cons e t ih =>
    obtain ⟨ek, ev⟩ := e
    by_cases h1 : ek = k
    · rw [show aset ((ek, ev) :: t) k v = (ek, v) :: t from by simp [aset, h1]] at h
      rcases List.mem_cons.mp h with h2 | h2
      · right
        rw [h2]
        exact ⟨h1, rfl⟩
      · exact Or.inl (List.mem_cons_of_mem _ h2)
    · rw [show aset ((ek, ev) :: t) k v = (ek, ev) :: aset t k v from by simp [aset, h1]] at h
      rcases List.mem_cons.mp h with h2 | h2
      · exact Or.inl (by rw [h2]; exact List.mem_cons_self _ _)
      · rcases ih h2 with h3 | h3
        · exact Or.inl (List.mem_cons_of_mem _ h3)
        · exact Or.inr h3

theorem addFrag_session_id (s pf : Fragment) : (addFrag s pf).session_id = s.session_id := rfl

theorem mergeAccum_entry_sid (frags : List Fragment) (acc : List (String × Fragment))
    (hacc : ∀ kv ∈ acc, (kv.2 : Fragment).session_id = kv.1) :
    ∀ kv ∈ mergeAccum acc frags, (kv.2 : Fragment).session_id = kv.1 := by
  induction frags generalizing acc with
  | nil => exact hacc
  | cons pf rest ih =>
    refine ih (mergeStep acc pf) ?_
    intro kv hkv
    unfold mergeStep at hkv
    cases halk : alookup acc pf.session_id with
    | some s =>
      rw [halk] at hkv
      rcases mem_aset _ _ _ _ hkv with h1 | h1
      · exact hacc kv h1
      · have hs : s.session_id = pf.session_id := by
          have := hacc (pf.session_id, s) (alookup_mem acc pf.session_id s halk)
          exact this
        rw [h1.2, addFrag_session_id, hs, h1.1]
    | none =>
      rw [halk] at hkv
      rcases List.mem_append.mp hkv with h1 | h1
      · exact hacc kv h1
      · rw [List.mem_singleton.mp h1]
        rfl

theorem mergeAccum_keys (frags : List Fragment) (acc : List (String × Fragment))
    (hacc : (acc.map Prod.fst).Nodup) :
    ((mergeAccum acc frags).map Prod.fst).Nodup ∧
    (∀ k : String, k ∈ (mergeAccum acc frags).map Prod.fst ↔
      k ∈ acc.map Prod.fst ∨ k ∈ frags.map (fun f => f.session_id)) := by
  induction frags generalizing acc with
  | nil =>
    refine ⟨hacc, fun k => ?_⟩
    simp [mergeAccum]
  | cons pf rest ih =>
    have hstep : (mergeStep acc pf).map Prod.fst = acc.map Prod.fst ∨
        ((mergeStep acc pf).map Prod.fst = acc.map Prod.fst ++ [pf.session_id] ∧
          pf.session_id ∉ acc.map Prod.fst) := by
      unfold mergeStep
      cases halk : alookup acc pf.session_id with
      | some s => exact Or.inl (aset_keys acc pf.session_id _ s halk)
      | none =>
        right
        refine ⟨by simp, ?_⟩
        exact (alookup_eq_none acc pf.session_id).mp halk
    have hnd2 : ((mergeStep acc pf).map Prod.fst).Nodup := by
      rcases hstep with h1 | ⟨h1, h2⟩
      · rw [h1]; exact hacc
      · rw [h1]
        rw [List.nodup_append]
        exact ⟨hacc, List.nodup_singleton _, by simpa using h2⟩
    obtain ⟨ihnd, ihmem⟩ := ih (mergeStep acc pf) hnd2
    refine ⟨ihnd, fun k => ?_⟩
    have hgoal : k ∈ (mergeAccum acc (pf :: rest)).map Prod.fst ↔
        k ∈ (mergeStep acc pf).map Prod.fst ∨ k ∈ rest.map (fun f => f.session_id) := ihmem k
    rw [hgoal]
    rcases hstep with h1 | ⟨h1, h2⟩
    · rw [h1]
      constructor
      · rintro (hk | hk)
        · exact Or.inl hk
        · exact Or.inr (by simp [hk])
      · rintro (hk | hk)
        · exact Or.inl hk
        · rcases List.mem_map.mp hk with ⟨f, hf, hfk⟩
          rcases List.mem_cons.mp hf with h3 | h3
          · left
            rw [h3] at hfk
            rw [← hfk]
            -- pf.session_id ∈ keys acc: from mergeStep with some-branch: key was present
            unfold mergeStep at h1
            cases halk : alookup acc pf.session_id with
            | some s =>
              exact List.mem_map.mpr ⟨(pf.session_id, s), alookup_mem _ _ _ halk, rfl⟩
            | none =>
              rw [halk] at h1
              have : (acc.map Prod.fst ++ [pf.session_id]) = acc.map Prod.fst := by
                simpa using h1
              have hlen := congrArg List.length this
              simp at hlen
          · exact Or.inr (List.mem_map.mpr ⟨f, h3, hfk⟩)
    · rw [h1]
      constructor
      · intro hk
        rcases hk with hk | hk
        · rcases List.mem_append.mp hk with h3 | h3
          · exact Or.inl h3
          · right
            simp at h3
            simp [h3]
        · rcases List.mem_map.mp hk with ⟨f, hf, hfk⟩
          exact Or.inr (List.mem_map.mpr ⟨f, List.mem_cons_of_mem _ hf, hfk⟩)
      · rintro (hk | hk)
        · exact Or.inl (List.mem_append.mpr (Or.inl hk))
        · rcases List.mem_map.mp hk with ⟨f, hf, hfk⟩
          rcases List.mem_cons.mp hf with h3 | h3
          · subst h3
            exact Or.inl (List.mem_append.mpr (Or.inr (by simp [hfk])))
          · exact Or.inr (List.mem_map.mpr ⟨f, h3, hfk⟩)

theorem foldl_addFrag_timestamps (F : List Fragment) (a : Fragment) :
    (F.foldl addFrag a).timestamps = a.timestamps ++ F.flatMap (fun f => f.timestamps) := by
  induction F generalizing a with
  | nil => simp
  | cons f t ih =>
    rw [List.foldl_cons, ih (addFrag a f)]
    show (a.timestamps ++ f.timestamps) ++ _ = _
    rw [List.flatMap_cons, List.append_assoc]

theorem foldl_addFrag_lines_added (F : List Fragment) (a : Fragment) :
    (F.foldl addFrag a).lines_added = a.lines_added + (F.map (fun f => f.lines_added)).sum := by
  induction F generalizing a with
  | nil => simp
  | cons f t ih =>
    rw [List.foldl_cons, ih (addFrag a f)]
    show (a.lines_added + f.lines_added) + _ = _
    rw [List.map_cons, List.sum_cons, Nat.add_assoc]

theorem foldl_addFrag_lines_removed (F : List Fragment) (a : Fragment) :
    (F.foldl addFrag a).lines_removed =
      a.lines_removed + (F.map (fun f => f.lines_removed)).sum := by
  induction F generalizing a with
  | nil => simp
  | cons f t ih =>
    rw [List.foldl_cons, ih (addFrag a f)]
    show (a.lines_removed + f.lines_removed) + _ = _
    rw [List.map_cons, List.sum_cons, Nat.add_assoc]

theorem foldl_addFrag_commits (F : List Fragment) (a : Fragment) :
    (F.foldl addFrag a).commits = a.commits + (F.map (fun f => f.commits)).sum := by
  induction F generalizing a with
  | nil => simp
  | cons f t ih =>
    rw [List.foldl_cons, ih (addFrag a f)]
    show (a.commits + f.commits) + _ = _
    rw [List.map_cons, List.sum_cons, Nat.add_assoc]

theorem foldl_addFrag_pull_requests (F : List Fragment) (a : Fragment) :
    (F.foldl addFrag a).pull_requests =
      a.pull_requests + (F.map (fun f => f.pull_requests)).sum := by
  induction F generalizing a with
  | nil => simp
  | cons f t ih =>
    rw [List.foldl_cons, ih (addFrag a f)]
    show (a.pull_requests + f.pull_requests) + _ = _
    rw [List.map_cons, List.sum_cons, Nat.add_assoc]

theorem foldl_addFrag_session_id (F : List Fragment) (a : Fragment) :
    (F.foldl addFrag a).session_id = a.session_id := by
  induction F generalizing a with
  | nil => rfl
  | cons f t ih => rw [List.foldl_cons, ih (addFrag a f), addFrag_session_id]

theorem tokAt_addTok (l : List (String × TokenCounts)) (m : String) (tc : TokenCounts)
    (m2 : String) (cat : TokenCat) :
    tokAt (addTok l m tc) m2 cat = tokAt l m2 cat + (if m2 = m then catCount tc cat else 0) := by
  unfold addTok tokAt
  rw [alookup_aset]
  by_cases h : m2 = m
  · subst h
    rw [if_pos rfl, if_pos rfl]
    cases halk : alookup l m2 <;> cases cat <;> simp [catCount, halk]
  · rw [if_neg h, if_neg h]
    cases halk : alookup l m2 <;> simp [halk]

theorem tokAt_mergeToks (ft : List (String × TokenCounts)) (acc : List (String × TokenCounts))
    (m : String) (cat : TokenCat) :
    tokAt (ft.foldl (fun a mc => addTok a mc.1 mc.2) acc) m cat =
      tokAt acc m cat +
        ((ft.filter (fun mc => mc.1 = m)).map (fun mc => catCount mc.2 cat)).sum := by
  induction ft generalizing acc with
  | nil => simp
  | cons mc rest ih =>
    rw [List.foldl_cons, ih (addTok acc mc.1 mc.2), tokAt_addTok]
    by_cases h : mc.1 = m
    · have hf : (mc :: rest).filter (fun mc2 => mc2.1 = m) =
          mc :: rest.filter (fun mc2 => mc2.1 = m) := by
        simp [List.filter_cons, h]
      rw [hf, List.map_cons, List.sum_cons, if_pos (h.symm ▸ rfl : m = mc.1)]
      omega
    · have hf : (mc :: rest).filter (fun mc2 => mc2.1 = m) =
          rest.filter (fun mc2 => mc2.1 = m) := by
        simp [List.filter_cons, h]
      rw [hf, if_neg (fun hc : m = mc.1 => h hc.symm)]
      omega

theorem tokAt_filter_sum (l : List (String × TokenCounts)) (m : String) (cat : TokenCat)
    (hnd : (l.map Prod.fst).Nodup) :
    ((l.filter (fun mc => mc.1 = m)).map (fun mc => catCount mc.2 cat)).sum =
      tokAt l m cat := by
  induction l with
  | nil => simp [tokAt, alookup]
  | cons kv t ih =>
    rw [List.map_cons] at hnd
    have hnd2 := List.Nodup.of_cons hnd
    have hnotmem : kv.1 ∉ t.map Prod.fst := (List.nodup_cons.mp hnd).1
    by_cases h : kv.1 = m
    · have hf : (kv :: t).filter (fun mc => mc.1 = m) = [kv] := by
        have hrest : t.filter (fun mc => mc.1 = m) = [] := by
          rw [List.filter_eq_nil_iff]
          intro mc hmc
          simp only [decide_eq_true_eq]
          intro hc
          exact hnotmem (h ▸ hc ▸ List.mem_map_of_mem Prod.fst hmc)
        simp [List.filter_cons, h, hrest]
      rw [hf]
      simp only [List.map_cons, List.map_nil, List.sum_cons, List.sum_nil]
      unfold tokAt
      rw [show alookup (kv :: t) m = some kv.2 from by
        rw [show (kv :: t) = ((kv.1, kv.2) :: t) from by rw [Prod.mk.eta]]
        simp [alookup, h]]
      simp
    · have hf : (kv :: t).filter (fun mc => mc.1 = m) = t.filter (fun mc => mc.1 = m) := by
        simp [List.filter_cons, h]
      rw [hf, ih hnd2]
      unfold tokAt
      rw [show alookup (kv :: t) m = alookup t m from by
        rw [show (kv :: t) = ((kv.1, kv.2) :: t) from by rw [Prod.mk.eta]]
        simp [alookup, h]]

theorem foldl_addFrag_tokAt (F : List Fragment) (a : Fragment) (m : String) (cat : TokenCat)
    (hnd : ∀ f ∈ F, (f.tokens.map Prod.fst).Nodup) :
    tokAt (F.foldl addFrag a).tokens m cat =
      tokAt a.tokens m cat + (F.map (fun f => tokAt f.tokens m cat)).sum := by
  induction F generalizing a with
  | nil => simp
  | cons f t ih =>
    rw [List.foldl_cons, ih (addFrag a f) (fun f2 hf2 => hnd f2 (List.mem_cons_of_mem _ hf2))]
    have haf : tokAt (addFrag a f).tokens m cat = tokAt a.tokens m cat + tokAt f.tokens m cat := by
      show tokAt (f.tokens.foldl (fun a2 mc => addTok a2 mc.1 mc.2) a.tokens) m cat = _
      rw [tokAt_mergeToks, tokAt_filter_sum f.tokens m cat (hnd f (List.mem_cons_self _ _))]
    rw [haf, List.map_cons, List.sum_cons]
    omega

theorem foldl_min_spec (t : List ℚ) (q : ℚ) :
    (t.foldl min q ≤ q ∧ ∀ x ∈ t, t.foldl min q ≤ x) ∧
      (t.foldl min q = q ∨ t.foldl min q ∈ t) := by
  induction t generalizing q with
  | nil => exact ⟨⟨le_rfl, by simp⟩, Or.inl rfl⟩
  | cons y ys ih =>
    obtain ⟨⟨ihle, ihall⟩, ihmem⟩ := ih (min q y)
    rw [List.foldl_cons]
    refine ⟨⟨le_trans ihle (min_le_left q y), ?_⟩, ?_⟩
    · intro x hx
      rcases List.mem_cons.mp hx with h1 | h1
      · rw [h1]
        exact le_trans ihle (min_le_right q y)
      · exact ihall x h1
    · rcases ihmem with h1 | h1
      · rcases min_choice q y with h2 | h2
        · exact Or.inl (h1.trans h2)
        · exact Or.inr (List.mem_cons.mpr (Or.inl (h1.trans h2)))
      · exact Or.inr (List.mem_cons_of_mem _ h1)

theorem foldl_max_spec (t : List ℚ) (q : ℚ) :
    (q ≤ t.foldl max q ∧ ∀ x ∈ t, x ≤ t.foldl max q) ∧
      (t.foldl max q = q ∨ t.foldl max q ∈ t) := by
  induction t generalizing q with
  | nil => exact ⟨⟨le_rfl, by simp⟩, Or.inl rfl⟩
  | cons y ys ih =>
    obtain ⟨⟨ihle, ihall⟩, ihmem⟩ := ih (max q y)
    rw [List.foldl_cons]
    refine ⟨⟨le_trans (le_max_left q y) ihle, ?_⟩, ?_⟩
    · intro x hx
      rcases List.mem_cons.mp hx with h1 | h1
      · rw [h1]
        exact le_trans (le_max_right q y) ihle
      · exact ihall x h1
    · rcases ihmem with h1 | h1
      · rcases max_choice q y with h2 | h2
        · exact Or.inl (h1.trans h2)
        · refine Or.inr (List.mem_cons.mpr (Or.inl (h1.trans h2)))
      · exact Or.inr (List.mem_cons_of_mem _ h1)

theorem listMin_spec (l : List ℚ) (m0 : ℚ) (h : listMin l = some m0) :
    m0 ∈ l ∧ ∀ x ∈ l, m0 ≤ x := by
  cases l with
  | nil => simp [listMin] at h
  | cons q t =>
    have hm : m0 = t.foldl min q := by
      simp [listMin] at h
      rw [h]
    obtain ⟨⟨hle, hall⟩, hmem⟩ := foldl_min_spec t q
    subst hm
    constructor
    · rcases hmem with h1 | h1
      · rw [h1]
        exact List.mem_cons_self q t
      · exact List.mem_cons_of_mem _ h1
    · intro x hx
      rcases List.mem_cons.mp hx with h1 | h1
      · rw [h1]
        exact hle
      · exact hall x h1

theorem listMax_spec (l : List ℚ) (m0 : ℚ) (h : listMax l = some m0) :
    m0 ∈ l ∧ ∀ x ∈ l, x ≤ m0 := by
  cases l with
  | nil => simp [listMax] at h
  | cons q t =>
    have hm : m0 = t.foldl max q := by
      simp [listMax] at h
      rw [h]
    obtain ⟨⟨hle, hall⟩, hmem⟩ := foldl_max_spec t q
    subst hm
    constructor
    · rcases hmem with h1 | h1
      · rw [h1]
        exact List.mem_cons_self q t
      · exact List.mem_cons_of_mem _ h1
    · intro x hx
      rcases List.mem_cons.mp hx with h1 | h1
      · rw [h1]
        exact hle
      · exact hall x h1

theorem filter_map_comm (A : List α) (g : α → β) (p : β → Bool) :
    (A.map g).filter p = (A.filter (fun a => p (g a))).map g := by
  induction A with
  | nil => rfl
  | cons a t ih =>
    by_cases h : p (g a) = true
    · simp [List.filter_cons, h, ih]
    · simp [List.filter_cons, h, ih]

theorem filter_key_length (A : List (String × Fragment)) (sid : String) :
    (A.filter (fun kv => kv.1 = sid)).length = (A.map Prod.fst).count sid := by
  induction A with
  | nil => rfl
  | cons kv t ih =>
    by_cases h : kv.1 = sid
    · simp [List.filter_cons, h, List.count_cons, ih]
    · simp [List.filter_cons, h, List.count_cons, ih]

theorem alookup_of_mem_nodup (l : List (String × α)) (kv : String × α)
    (hnd : (l.map Prod.fst).Nodup) (h : kv ∈ l) : alookup l kv.1 = some kv.2 := by
  induction l with
  | nil => simp at h
  | cons e t ih =>
    rcases List.mem_cons.mp h with h1 | h1
    · rw [h1, show (e :: t) = ((e.1, e.2) :: t) from by rw [Prod.mk.eta]]
      simp [alookup]
    · have hne : e.1 ≠ kv.1 := by
        rw [List.map_cons, List.nodup_cons] at hnd
        intro hc
        exact hnd.1 (hc ▸ List.mem_map_of_mem Prod.fst h1)
      rw [show (e :: t) = ((e.1, e.2) :: t) from by rw [Prod.mk.eta]]
      simp only [alookup]
      rw [if_neg hne]
      exact ih (by rw [List.map_cons, List.nodup_cons] at hnd; exact hnd.2) h1

/-- C5 (amended): merging an unordered fragment collection yields exactly
one canonical session per distinct session id; its per-model per-category
token counts and its four counters are the sums over the fragments with
that id, its timestamp list is their concatenation, start/end are the
minimum/maximum over that concatenation — but `active_seconds` equals
`end - start` only under Python truthiness of both endpoints: when the
minimum (or maximum) timestamp is exactly `0.0`, `active_seconds` is `0`. -/
theorem C5_merge_aggregation (frags : List Fragment) (sid : String)
    (hmem : sid ∈ frags.map (fun f => f.session_id))
    (hnd : ∀ f ∈ frags, (f.tokens.map Prod.fst).Nodup) :
    ((merge_into_sessions frags).filter (fun s => s.session_id = sid)).length = 1 ∧
    (∀ s ∈ merge_into_sessions frags, s.session_id = sid →
      (∀ m cat, tokAt s.tokens m cat =
        ((frags.filter (fun f => f.session_id = sid)).map
          (fun f => tokAt f.tokens m cat)).sum) ∧
      s.lines_added = ((frags.filter (fun f => f.session_id = sid)).map
        (fun f => f.lines_added)).sum ∧
      s.lines_removed = ((frags.filter (fun f => f.session_id = sid)).map
        (fun f => f.lines_removed)).sum ∧
      s.commits = ((frags.filter (fun f => f.session_id = sid)).map
        (fun f => f.commits)).sum ∧
      s.pull_requests = ((frags.filter (fun f => f.session_id = sid)).map
        (fun f => f.pull_requests)).sum ∧
      s.start_ts = listMin ((frags.filter (fun f => f.session_id = sid)).flatMap
        (fun f => f.timestamps)) ∧
      s.end_ts = listMax ((frags.filter (fun f => f.session_id = sid)).flatMap
        (fun f => f.timestamps)) ∧
      (∀ m0, s.start_ts = some m0 →
        m0 ∈ (frags.filter (fun f => f.session_id = sid)).flatMap (fun f => f.timestamps) ∧
        ∀ x ∈ (frags.filter (fun f => f.session_id = sid)).flatMap (fun f => f.timestamps),
          m0 ≤ x) ∧
      (∀ m0, s.end_ts = some m0 →
        m0 ∈ (frags.filter (fun f => f.session_id = sid)).flatMap (fun f => f.timestamps) ∧
        ∀ x ∈ (frags.filter (fun f => f.session_id = sid)).flatMap (fun f => f.timestamps),
          x ≤ m0) ∧
      s.active_seconds =
        (match listMin ((frags.filter (fun f => f.session_id = sid)).flatMap
            (fun f => f.timestamps)),
          listMax ((frags.filter (fun f => f.session_id = sid)).flatMap
            (fun f => f.timestamps)) with
        | some a, some b => if a ≠ 0 ∧ b ≠ 0 then b - a else 0
        | _, _ => 0)) := by
  obtain ⟨f, hf, hfs⟩ := List.mem_map.mp hmem
  have hkeys := mergeAccum_keys frags [] (by simp)
  have hentry := mergeAccum_entry_sid frags [] (by simp)
  have hcount : ((merge_into_sessions frags).filter
      (fun s => s.session_id = sid)).length = 1 := by
    show (((mergeAccum [] frags).map (fun kv => finalize kv.2)).filter
      (fun s => s.session_id = sid)).length = 1
    rw [filter_map_comm]
    have hpred : ∀ kv ∈ mergeAccum [] frags,
        (decide ((finalize kv.2).session_id = sid)) = (decide (kv.1 = sid)) := by
      intro kv hkv
      rw [show (finalize kv.2).session_id = kv.2.session_id from rfl, hentry kv hkv]
    rw [List.length_map, List.filter_congr hpred, filter_key_length]
    exact List.count_eq_one_of_mem hkeys.1 ((hkeys.2 sid).mpr (Or.inr hmem))
  cases hF : frags.filter (fun f2 => f2.session_id = sid) with
  | nil =>
    exfalso
    have hmem2 : f ∈ frags.filter (fun f2 => f2.session_id = sid) :=
      List.mem_filter.mpr ⟨hf, by simp [hfs]⟩
    rw [hF] at hmem2
    simp at hmem2
  | cons f0 F2 =>
    have hlk : alookup (mergeAccum [] frags) sid =
        some (F2.foldl addFrag (addFrag (initAcc f0) f0)) := by
      rw [mergeAccum_lookup]
      rw [show alookup ([] : List (String × Fragment)) sid = none from rfl]
      rw [hF]
    have hFmem : ∀ f2 ∈ f0 :: F2, f2 ∈ frags := by
      intro f2 hf2
      rw [← hF] at hf2
      exact (List.mem_filter.mp hf2).1
    have haccv2 : F2.foldl addFrag (addFrag (initAcc f0) f0) =
        (f0 :: F2).foldl addFrag (initAcc f0) := rfl
    refine ⟨hcount, ?_⟩
    intro s hs hssid
    rcases List.mem_map.mp hs with ⟨kv, hkv, hfin⟩
    have hk1 : kv.1 = sid := by
      have h1 := hentry kv hkv
      have h2 : s.session_id = kv.2.session_id := by
        rw [← hfin]
        rfl
      rw [← h1, ← h2]
      exact hssid
    have hkv2 : kv.2 = F2.foldl addFrag (addFrag (initAcc f0) f0) := by
      have h1 := alookup_of_mem_nodup (mergeAccum [] frags) kv hkeys.1 hkv
      rw [hk1] at h1
      have h3 := h1.symm.trans hlk
      injection h3
    have hsval : s = finalize ((f0 :: F2).foldl addFrag (initAcc f0)) := by
      rw [← hfin, hkv2, haccv2]
    have htok : ∀ m cat, tokAt ((f0 :: F2).foldl addFrag (initAcc f0)).tokens m cat =
        ((f0 :: F2).map (fun f2 => tokAt f2.tokens m cat)).sum := by
      intro m cat
      rw [foldl_addFrag_tokAt _ _ _ _ (fun f2 hf2 => hnd f2 (hFmem f2 hf2))]
      simp [initAcc, tokAt, alookup]
    have hts : ((f0 :: F2).foldl addFrag (initAcc f0)).timestamps =
        (f0 :: F2).flatMap (fun f2 => f2.timestamps) := by
      rw [foldl_addFrag_timestamps]
      simp [initAcc]
    rw [hsval]
    refine ⟨?_, ?_, ?_, ?_, ?_, ?_, ?_, ?_, ?_, ?_⟩
    · intro m cat
      exact htok m cat
    · show ((f0 :: F2).foldl addFrag (initAcc f0)).lines_added = _
      rw [foldl_addFrag_lines_added]
      simp [initAcc]
    · show ((f0 :: F2).foldl addFrag (initAcc f0)).lines_removed = _
      rw [foldl_addFrag_lines_removed]
      simp [initAcc]
    · show ((f0 :: F2).foldl addFrag (initAcc f0)).commits = _
      rw [foldl_addFrag_commits]
      simp [initAcc]
    · show ((f0 :: F2).foldl addFrag (initAcc f0)).pull_requests = _
      rw [foldl_addFrag_pull_requests]
      simp [initAcc]
    · show listMin ((f0 :: F2).foldl addFrag (initAcc f0)).timestamps = _
      rw [hts]
    · show listMax ((f0 :: F2).foldl addFrag (initAcc f0)).timestamps = _
      rw [hts]
    · intro m0 hm0
      have hm1 : listMin ((f0 :: F2).flatMap (fun f2 => f2.timestamps)) = some m0 := by
        rw [← hts]
        exact hm0
      exact listMin_spec _ m0 hm1
    · intro m0 hm0
      have hm1 : listMax ((f0 :: F2).flatMap (fun f2 => f2.timestamps)) = some m0 := by
        rw [← hts]
        exact hm0
      exact listMax_spec _ m0 hm1
    · show (match listMin ((f0 :: F2).foldl addFrag (initAcc f0)).timestamps,
          listMax ((f0 :: F2).foldl addFrag (initAcc f0)).timestamps with
        | some a, some b => if a ≠ 0 ∧ b ≠ 0 then b - a else 0
        | _, _ => 0) = _
      rw [hts]

theorem C5_witness :
    ((merge_into_sessions
      [⟨"s", "p", [("m", ⟨1, 2, 3, 4⟩)], [5], 1, 2, 3, 4⟩,
       ⟨"s", "p2", [("m", ⟨10, 0, 0, 0⟩)], [7, 6], 5, 6, 7, 8⟩]).filter
        (fun s => s.session_id = "s")).length = 1 :=
  (C5_merge_aggregation
    [⟨"s", "p", [("m", ⟨1, 2, 3, 4⟩)], [5], 1, 2, 3, 4⟩,
     ⟨"s", "p2", [("m", ⟨10, 0, 0, 0⟩)], [7, 6], 5, 6, 7, 8⟩] "s"
    (by simp) (by intro f hf; fin_cases hf <;> simp)).1

/-- C5 counterexample: a fragment whose timestamp list contains the epoch
`0.0` merges into a session with `start = 0`, `end = 100` — but
`active_seconds` is `0`, not `end - start = 100`, because `0.0` is falsy
in the guard `if start_ts and end_ts`. -/
theorem C5_counterexample :
    (merge_into_sessions [⟨"s", "p", [("m", ⟨1, 0, 0, 0⟩)], [0, 100], 0, 0, 0, 0⟩]).map
        (fun s => (s.start_ts, s.end_ts, s.active_seconds))
      = [(some 0, some 100, 0)] ∧
    (100 : ℚ) - 0 ≠ 0 := by
  constructor
  · have hmin : listMin [(0 : ℚ), 100] = some 0 := by
      simp [listMin, min_def]
    have hmax : listMax [(0 : ℚ), 100] = some 100 := by
      norm_num [listMax, max_def]
    norm_num [merge_into_sessions, mergeAccum, mergeStep, alookup, addFrag, initAcc,
      finalize, hmin, hmax]
  · norm_num

theorem alookup_aerase_ne (l : List (String × α)) (k k2 : String) (h : k2 ≠ k) :
    alookup (aerase l k) k2 = alookup l k2 := by
  induction l with
  | nil => rfl
  | cons kv t ih =>
    obtain ⟨ek, ev⟩ := kv
    by_cases h1 : ek = k
    · have h2 : ek ≠ k2 := fun hc => h (hc ▸ h1)
      rw [show aerase ((ek, ev) :: t) k = t from by simp [aerase, h1]]
      rw [show alookup ((ek, ev) :: t) k2 = alookup t k2 from by simp [alookup, h2]]
    · simp only [aerase, if_neg h1]
      by_cases h2 : ek = k2
      · simp [alookup, h2]
      · simp [alookup, h2, ih]

theorem alookup_aerase_self (l : List (String × α)) (k : String)
    (hnd : (l.map Prod.fst).Nodup) : alookup (aerase l k) k = none := by
  induction l with
  | nil => rfl
  | cons kv t ih =>
    obtain ⟨ek, ev⟩ := kv
    rw [List.map_cons, List.nodup_cons] at hnd
    by_cases h1 : ek = k
    · rw [show aerase ((ek, ev) :: t) k = t from by simp [aerase, h1]]
      rw [alookup_eq_none, ← h1]
      exact hnd.1
    · rw [show aerase ((ek, ev) :: t) k = (ek, ev) :: aerase t k from by simp [aerase, h1]]
      rw [show alookup ((ek, ev) :: aerase t k) k = alookup (aerase t k) k from by
        simp [alookup, h1]]
      exact ih hnd.2

theorem aerase_keys_sublist (l : List (String × α)) (k : String) :
    ((aerase l k).map Prod.fst).Sublist (l.map Prod.fst) := by
  induction l with
  | nil => exact List.Sublist.refl _
  | cons kv t ih =>
    obtain ⟨ek, ev⟩ := kv
    by_cases h1 : ek = k
    · rw [show aerase ((ek, ev) :: t) k = t from by simp [aerase, h1]]
      exact (List.Sublist.refl _).cons _
    · rw [show aerase ((ek, ev) :: t) k = (ek, ev) :: aerase t k from by simp [aerase, h1]]
      rw [List.map_cons, List.map_cons]
      exact ih.cons₂ _

theorem aerase_nodup (l : List (String × α)) (k : String)
    (hnd : (l.map Prod.fst).Nodup) : ((aerase l k).map Prod.fst).Nodup :=
  List.Nodup.sublist (aerase_keys_sublist l k) hnd

theorem mem_aset_keys (l : List (String × α)) (k : String) (v : α) (x : String)
    (h : x ∈ (aset l k v).map Prod.fst) : x ∈ l.map Prod.fst ∨ x = k := by
  obtain ⟨kv, hkv, hx⟩ := List.mem_map.mp h
  rcases mem_aset l k v kv hkv with h1 | h1
  · exact Or.inl (hx ▸ List.mem_map_of_mem Prod.fst h1)
  · exact Or.inr (hx ▸ h1.1)

theorem aset_nodup (l : List (String × α)) (k : String) (v : α)
    (hnd : (l.map Prod.fst).Nodup) : ((aset l k v).map Prod.fst).Nodup := by
  induction l with
  | nil => simp [aset]
  | cons kv t ih =>
    obtain ⟨ek, ev⟩ := kv
    rw [List.map_cons, List.nodup_cons] at hnd
    by_cases h1 : ek = k
    · rw [show aset ((ek, ev) :: t) k v = (ek, v) :: t from by simp [aset, h1]]
      rw [List.map_cons, List.nodup_cons]
      exact ⟨hnd.1, hnd.2⟩
    · rw [show aset ((ek, ev) :: t) k v = (ek, ev) :: aset t k v from by simp [aset, h1]]
      rw [List.map_cons, List.nodup_cons]
      refine ⟨?_, ih hnd.2⟩
      intro hc
      rcases mem_aset_keys t k v ek hc with h2 | h2
      · exact hnd.1 h2
      · exact h1 h2

theorem regBlockG_erase (ts : ℚ) (p : List (String × PendingTool)) (e : List Event)
    (g : List (String × Bool)) (b : Block) :
    regBlockG ts ⟨p, e, g⟩ b =
      ⟨(regBlock ts ⟨p, e⟩ b).pending, (regBlock ts ⟨p, e⟩ b).events, g⟩ := by
  cases b with
  | toolUse oid name input =>
    cases oid with
    | none => rfl
    | some i =>
      by_cases hi : i = ""
      · simp [regBlockG, regBlock, hi]
      · simp [regBlockG, regBlock, hi]
  | toolResult oid isErr => rfl
  | other => rfl

theorem resBlockG_erase (proj sid : String) (ts : ℚ) (p : List (String × PendingTool))
    (e : List Event) (g : List (String × Bool)) (b : Block) :
    (resBlockG proj sid ts ⟨p, e, g⟩ b).pending = (resBlock proj sid ts ⟨p, e⟩ b).pending ∧
    (resBlockG proj sid ts ⟨p, e, g⟩ b).events = (resBlock proj sid ts ⟨p, e⟩ b).events := by
  cases b with
  | toolResult oid isErr =>
    cases oid with
    | none => exact ⟨rfl, rfl⟩
    | some i =>
      by_cases hi : i = ""
      · simp [resBlockG, resBlock, hi]
      · cases hl : alookup p i with
        | none => simp [resBlockG, resBlock, hi, hl]
        | some pt => simp [resBlockG, resBlock, hi, hl]
  | toolUse oid name input => exact ⟨rfl, rfl⟩
  | other => exact ⟨rfl, rfl⟩

theorem foldl_regBlockG_erase (ts : ℚ) (bs : List Block) :
    ∀ (p : List (String × PendingTool)) (e : List Event) (g : List (String × Bool)),
    bs.foldl (regBlockG ts) ⟨p, e, g⟩ =
      ⟨(bs.foldl (regBlock ts) ⟨p, e⟩).pending, (bs.foldl (regBlock ts) ⟨p, e⟩).events, g⟩ := by
  induction bs with
  | nil =>
    intro p e g
    rfl
  | cons b t ih =>
    intro p e g
    rw [List.foldl_cons, List.foldl_cons, regBlockG_erase, ih]

theorem foldl_resBlockG_erase (proj sid : String) (ts : ℚ) (bs : List Block) :
    ∀ (p : List (String × PendingTool)) (e : List Event) (g : List (String × Bool)),
    (bs.foldl (resBlockG proj sid ts) ⟨p, e, g⟩).pending =
      (bs.foldl (resBlock proj sid ts) ⟨p, e⟩).pending ∧
    (bs.foldl (resBlockG proj sid ts) ⟨p, e, g⟩).events =
      (bs.foldl (resBlock proj sid ts) ⟨p, e⟩).events := by
  induction bs with
  | nil =>
    intro p e g
    exact ⟨rfl, rfl⟩
  | cons b t ih =>
    intro p e g
    obtain ⟨h1, h2⟩ := resBlockG_erase proj sid ts p e g b
    have h3 := ih (resBlockG proj sid ts ⟨p, e, g⟩ b).pending
      (resBlockG proj sid ts ⟨p, e, g⟩ b).events (resBlockG proj sid ts ⟨p, e, g⟩ b).rlog
    have h4 : (⟨(resBlockG proj sid ts ⟨p, e, g⟩ b).pending,
        (resBlockG proj sid ts ⟨p, e, g⟩ b).events⟩ : LState) =
        resBlock proj sid ts ⟨p, e⟩ b := by
      rw [h1, h2]
    rw [h4] at h3
    exact h3

theorem stepRecord_scan (proj sid : String) (st : LState) (r : Record) :
    stepRecord proj sid st r =
      (resScan r).foldl (resBlock proj sid (r.ts.getD 0))
        ((regScan r).foldl (regBlock (r.ts.getD 0)) st) := by
  obtain ⟨ty, ts, sid0, msg⟩ := r
  cases ts with
  | none => rfl
  | some t =>
    by_cases ht : t = 0
    · simp [stepRecord, regScan, resScan, ht]
    · cases msg with
      | none => simp [stepRecord, regScan, resScan, ht]
      | some m =>
        cases m with
        | mk model usage content =>
          cases content with
          | notList => simp [stepRecord, regScan, resScan, ht]
          | blocks bs =>
            by_cases hA : ty = some "assistant" <;> by_cases hU : ty = some "user"
            · rw [hA] at hU
              simp at hU
            · simp [stepRecord, regScan, resScan, ht, hA, hU]
            · simp [stepRecord, regScan, resScan, ht, hA, hU]
            · simp [stepRecord, regScan, resScan, ht, hA, hU]

theorem stepRecordG_scan (proj sid : String) (st : GLState) (r : Record) :
    stepRecordG proj sid st r =
      (resScan r).foldl (resBlockG proj sid (r.ts.getD 0))
        ((regScan r).foldl (regBlockG (r.ts.getD 0)) st) := by
  obtain ⟨ty, ts, sid0, msg⟩ := r
  cases ts with
  | none => rfl
  | some t =>
    by_cases ht : t = 0
    · simp [stepRecordG, regScan, resScan, ht]
    · cases msg with
      | none => simp [stepRecordG, regScan, resScan, ht]
      | some m =>
        cases m with
        | mk model usage content =>
          cases content with
          | notList => simp [stepRecordG, regScan, resScan, ht]
          | blocks bs =>
            by_cases hA : ty = some "assistant" <;> by_cases hU : ty = some "user"
            · rw [hA] at hU
              simp at hU
            · simp [stepRecordG, regScan, resScan, ht, hA, hU]
            · simp [stepRecordG, regScan, resScan, ht, hA, hU]
            · simp [stepRecordG, regScan, resScan, ht, hA, hU]

theorem stepRecordG_erase (proj sid : String) (p : List (String × PendingTool))
    (e : List Event) (g : List (String × Bool)) (r : Record) :
    (stepRecordG proj sid ⟨p, e, g⟩ r).pending = (stepRecord proj sid ⟨p, e⟩ r).pending ∧
    (stepRecordG proj sid ⟨p, e, g⟩ r).events = (stepRecord proj sid ⟨p, e⟩ r).events := by
  rw [stepRecordG_scan, stepRecord_scan, foldl_regBlockG_erase]
  exact foldl_resBlockG_erase proj sid (r.ts.getD 0) (resScan r) _ _ _

theorem runRecordsG_erase (proj sid : String) (rs : List Record) :
    ∀ (p : List (String × PendingTool)) (e : List Event) (g : List (String × Bool)),
    (runRecordsG proj sid ⟨p, e, g⟩ rs).pending = (runRecords proj sid ⟨p, e⟩ rs).pending ∧
    (runRecordsG proj sid ⟨p, e, g⟩ rs).events = (runRecords proj sid ⟨p, e⟩ rs).events := by
  induction rs with
  | nil =>
    intro p e g
    exact ⟨rfl, rfl⟩
  | cons r rest ih =>
    intro p e g
    obtain ⟨h1, h2⟩ := stepRecordG_erase proj sid p e g r
    have h3 := ih (stepRecordG proj sid ⟨p, e, g⟩ r).pending
      (stepRecordG proj sid ⟨p, e, g⟩ r).events (stepRecordG proj sid ⟨p, e, g⟩ r).rlog
    have h4 : (⟨(stepRecordG proj sid ⟨p, e, g⟩ r).pending,
        (stepRecordG proj sid ⟨p, e, g⟩ r).events⟩ : LState) =
        stepRecord proj sid ⟨p, e⟩ r := by
      rw [h1, h2]
    rw [h4] at h3
    exact h3

theorem regBlockG_rlog (ts : ℚ) (st : GLState) (b : Block) :
    (regBlockG ts st b).rlog = st.rlog := by
  cases b with
  | toolUse oid name input =>
    cases oid with
    | none => rfl
    | some i =>
      by_cases hi : i = ""
      · simp [regBlockG, hi]
      · simp [regBlockG, hi]
  | toolResult oid isErr => rfl
  | other => rfl

theorem regBlockG_clean (ts : ℚ) (st : GLState) (b : Block) (c : String)
    (h : blockRegisters c b = false) :
    alookup (regBlockG ts st b).pending c = alookup st.pending c := by
  cases b with
  | toolUse oid name input =>
    cases oid with
    | none => rfl
    | some i =>
      have hne : i ≠ c := by simpa [blockRegisters] using h
      by_cases hi : i = ""
      · simp [regBlockG, hi]
      · simp [regBlockG, hi, alookup_aset, Ne.symm hne]
  | toolResult oid isErr => rfl
  | other => rfl

theorem regBlockG_isSome (ts : ℚ) (st : GLState) (b : Block) (c : String)
    (h : (alookup st.pending c).isSome = true) :
    (alookup (regBlockG ts st b).pending c).isSome = true := by
  cases b with
  | toolUse oid name input =>
    cases oid with
    | none => exact h
    | some i =>
      by_cases hi : i = ""
      · simpa [regBlockG, hi] using h
      · by_cases hic : c = i
        · simp [regBlockG, hi, alookup_aset, hic]
        · simpa [regBlockG, hi, alookup_aset, hic] using h
  | toolResult oid isErr => exact h
  | other => exact h

theorem regBlockG_registers (ts : ℚ) (st : GLState) (b : Block) (c : String)
    (hc : c ≠ "") (h : blockRegisters c b = true) :
    (alookup (regBlockG ts st b).pending c).isSome = true := by
  cases b with
  | toolUse oid name input =>
    cases oid with
    | none => simp [blockRegisters] at h
    | some i =>
      have hic : i = c := by simpa [blockRegisters] using h
      simp [regBlockG, hic, hc, alookup_aset]
  | toolResult oid isErr => simp [blockRegisters] at h
  | other => simp [blockRegisters] at h

theorem regBlockG_nodup (ts : ℚ) (st : GLState) (b : Block)
    (h : (st.pending.map Prod.fst).Nodup) :
    ((regBlockG ts st b).pending.map Prod.fst).Nodup := by
  cases b with
  | toolUse oid name input =>
    cases oid with
    | none => exact h
    | some i =>
      by_cases hi : i = ""
      · simpa [regBlockG, hi] using h
      · simp only [regBlockG, if_neg hi]
        exact aset_nodup _ _ _ h
  | toolResult oid isErr => exact h
  | other => exact h

theorem foldl_regBlockG_rlog (ts : ℚ) (bs : List Block) :
    ∀ st : GLState, (bs.foldl (regBlockG ts) st).rlog = st.rlog := by
  induction bs with
  | nil =>
    intro st
    rfl
  | cons b t ih =>
    intro st
    rw [List.foldl_cons, ih, regBlockG_rlog]

theorem foldl_regBlockG_clean (ts : ℚ) (bs : List Block) (c : String)
    (h : ∀ b ∈ bs, blockRegisters c b = false) :
    ∀ st : GLState,
    alookup (bs.foldl (regBlockG ts) st).pending c = alookup st.pending c := by
  induction bs with
  | nil =>
    intro st
    rfl
  | cons b t ih =>
    intro st
    rw [List.foldl_cons, ih (fun b2 hb2 => h b2 (List.mem_cons_of_mem _ hb2)),
      regBlockG_clean ts st b c (h b (List.mem_cons_self _ _))]

theorem foldl_regBlockG_isSome (ts : ℚ) (bs : List Block) (c : String) :
    ∀ st : GLState, (alookup st.pending c).isSome = true →
    (alookup ((bs.foldl (regBlockG ts) st)).pending c).isSome = true := by
  induction bs with
  | nil =>
    intro st h
    exact h
  | cons b t ih =>
    intro st h
    rw [List.foldl_cons]
    exact ih _ (regBlockG_isSome ts st b c h)

theorem foldl_regBlockG_registers (ts : ℚ) (bs : List Block) (c : String) (hc : c ≠ "")
    (h : ∃ b ∈ bs, blockRegisters c b = true) :
    ∀ st : GLState, (alookup ((bs.foldl (regBlockG ts) st)).pending c).isSome = true := by
  induction bs with
  | nil => simp at h
  | cons b t ih =>
    intro st
    rw [List.foldl_cons]
    by_cases hb : blockRegisters c b = true
    · exact foldl_regBlockG_isSome ts t c _ (regBlockG_registers ts st b c hc hb)
    · obtain ⟨b2, hb2, hreg⟩ := h
      rcases List.mem_cons.mp hb2 with h1 | h1
      · exact absurd (h1 ▸ hreg) hb
      · exact ih ⟨b2, h1, hreg⟩ _

theorem foldl_regBlockG_nodup (ts : ℚ) (bs : List Block) :
    ∀ st : GLState, (st.pending.map Prod.fst).Nodup →
    ((bs.foldl (regBlockG ts) st).pending.map Prod.fst).Nodup := by
  induction bs with
  | nil =>
    intro st h
    exact h
  | cons b t ih =>
    intro st h
    rw [List.foldl_cons]
    exact ih _ (regBlockG_nodup ts st b h)

theorem resBlockG_nodup (proj sid : String) (ts : ℚ) (st : GLState) (b : Block)
    (h : (st.pending.map Prod.fst).Nodup) :
    ((resBlockG proj sid ts st b).pending.map Prod.fst).Nodup := by
  cases b with
  | toolResult oid isErr =>
    cases oid with
    | none => exact h
    | some i =>
      by_cases hi : i = ""
      · simpa [resBlockG, hi] using h
      · cases hl : alookup st.pending i with
        | none => simpa [resBlockG, hi, hl] using h
        | some pt =>
          simp only [resBlockG, if_neg hi, hl]
          exact aerase_nodup _ _ h
  | toolUse oid name input => exact h
  | other => exact h

theorem resBlockG_clean (proj sid : String) (ts : ℚ) (st : GLState) (b : Block) (c : String)
    (h : blockResolves c b = false) :
    alookup (resBlockG proj sid ts st b).pending c = alookup st.pending c ∧
    (resBlockG proj sid ts st b).rlog.filter (fun e2 => e2.1 = c) =
      st.rlog.filter (fun e2 => e2.1 = c) := by
  cases b with
  | toolResult oid isErr =>
    cases oid with
    | none => exact ⟨rfl, rfl⟩
    | some i =>
      have hne : i ≠ c := by simpa [blockResolves] using h
      by_cases hi : i = ""
      · simp [resBlockG, hi]
      · cases hl : alookup st.pending i with
        | none => simp [resBlockG, hi, hl]
        | some pt =>
          constructor
          · simp [resBlockG, hi, hl,
              alookup_aerase_ne st.pending i c (fun hcc => hne hcc.symm)]
          · simp [resBlockG, hi, hl, List.filter_append, hne]
  | toolUse oid name input => exact ⟨rfl, rfl⟩
  | other => exact ⟨rfl, rfl⟩

theorem resBlockG_none (proj sid : String) (ts : ℚ) (st : GLState) (b : Block) (c : String)
    (h : alookup st.pending c = none) :
    alookup (resBlockG proj sid ts st b).pending c = none ∧
    (resBlockG proj sid ts st b).rlog.filter (fun e2 => e2.1 = c) =
      st.rlog.filter (fun e2 => e2.1 = c) := by
  cases b with
  | toolResult oid isErr =>
    cases oid with
    | none => exact ⟨h, rfl⟩
    | some i =>
      by_cases hi : i = ""
      · simp [resBlockG, hi, h]
      · cases hl : alookup st.pending i with
        | none => simp [resBlockG, hi, hl, h]
        | some pt =>
          have hne : i ≠ c := fun hic => by
            rw [hic, h] at hl
            exact Option.noConfusion hl
          constructor
          · simp [resBlockG, hi, hl,
              alookup_aerase_ne st.pending i c (fun hcc => hne hcc.symm), h]
          · simp [resBlockG, hi, hl, List.filter_append, hne]
  | toolUse oid name input => exact ⟨h, rfl⟩
  | other => exact ⟨h, rfl⟩

theorem foldl_resBlockG_nodup (proj sid : String) (ts : ℚ) (bs : List Block) :
    ∀ st : GLState, (st.pending.map Prod.fst).Nodup →
    ((bs.foldl (resBlockG proj sid ts) st).pending.map Prod.fst).Nodup := by
  induction bs with
  | nil =>
    intro st h
    exact h
  | cons b t ih =>
    intro st h
    rw [List.foldl_cons]
    exact ih _ (resBlockG_nodup proj sid ts st b h)

theorem foldl_resBlockG_clean (proj sid : String) (ts : ℚ) (bs : List Block) (c : String)
    (h : ∀ b ∈ bs, blockResolves c b = false) :
    ∀ st : GLState,
    alookup (bs.foldl (resBlockG proj sid ts) st).pending c = alookup st.pending c ∧
    (bs.foldl (resBlockG proj sid ts) st).rlog.filter (fun e2 => e2.1 = c) =
      st.rlog.filter (fun e2 => e2.1 = c) := by
  induction bs with
  | nil =>
    intro st
    exact ⟨rfl, rfl⟩
  | cons b t ih =>
    intro st
    rw [List.foldl_cons]
    obtain ⟨h1, h2⟩ := resBlockG_clean proj sid ts st b c (h b (List.mem_cons_self _ _))
    obtain ⟨h3, h4⟩ := ih (fun b2 hb2 => h b2 (List.mem_cons_of_mem _ hb2))
      (resBlockG proj sid ts st b)
    exact ⟨h3.trans h1, h4.trans h2⟩

theorem foldl_resBlockG_none (proj sid : String) (ts : ℚ) (bs : List Block) (c : String) :
    ∀ st : GLState, alookup st.pending c = none →
    alookup (bs.foldl (resBlockG proj sid ts) st).pending c = none ∧
    (bs.foldl (resBlockG proj sid ts) st).rlog.filter (fun e2 => e2.1 = c) =
      st.rlog.filter (fun e2 => e2.1 = c) := by
  induction bs with
  | nil =>
    intro st h
    exact ⟨h, rfl⟩
  | cons b t ih =>
    intro st h
    rw [List.foldl_cons]
    obtain ⟨h1, h2⟩ := resBlockG_none proj sid ts st b c h
    obtain ⟨h3, h4⟩ := ih _ h1
    exact ⟨h3, h4.trans h2⟩

theorem resScan_eq_nil (r : Record) (h : regScan r ≠ []) : resScan r = [] := by
  obtain ⟨ty, ts, sid0, msg⟩ := r
  cases ts with
  | none => exact absurd rfl h
  | some t =>
    by_cases ht : t = 0
    · exact absurd (by simp [regScan, ht]) h
    · cases msg with
      | none => exact absurd (by simp [regScan, ht]) h
      | some m =>
        cases m with
        | mk model usage content =>
          cases content with
          | notList => exact absurd (by simp [regScan, ht]) h
          | blocks bs =>
            by_cases hA : ty = some "assistant"
            · have hU : ty ≠ some "user" := by
                rw [hA]
                simp
              simp [resScan, ht, hU]
            · exact absurd (by simp [regScan, ht, hA]) h

theorem regScan_eq_nil (r : Record) (h : resScan r ≠ []) : regScan r = [] := by
  obtain ⟨ty, ts, sid0, msg⟩ := r
  cases ts with
  | none => exact absurd rfl h
  | some t =>
    by_cases ht : t = 0
    · exact absurd (by simp [resScan, ht]) h
    · cases msg with
      | none => exact absurd (by simp [resScan, ht]) h
      | some m =>
        cases m with
        | mk model usage content =>
          cases content with
          | notList => exact absurd (by simp [resScan, ht]) h
          | blocks bs =>
            by_cases hU : ty = some "user"
            · have hA : ty ≠ some "assistant" := by
                rw [hU]
                simp
              simp [regScan, ht, hA]
            · exact absurd (by simp [resScan, ht, hU]) h

theorem stepRecordG_nodup (proj sid : String) (st : GLState) (r : Record)
    (h : (st.pending.map Prod.fst).Nodup) :
    ((stepRecordG proj sid st r).pending.map Prod.fst).Nodup := by
  rw [stepRecordG_scan]
  exact foldl_resBlockG_nodup proj sid (r.ts.getD 0) (resScan r) _
    (foldl_regBlockG_nodup (r.ts.getD 0) (regScan r) st h)

theorem stepRecordG_clean_pres (proj sid : String) (st : GLState) (r : Record) (c : String)
    (hreg : ∀ b ∈ regScan r, blockRegisters c b = false)
    (hres : ∀ b ∈ resScan r, blockResolves c b = false) :
    alookup (stepRecordG proj sid st r).pending c = alookup st.pending c ∧
    (stepRecordG proj sid st r).rlog.filter (fun e2 => e2.1 = c) =
      st.rlog.filter (fun e2 => e2.1 = c) := by
  rw [stepRecordG_scan]
  obtain ⟨h1, h2⟩ := foldl_resBlockG_clean proj sid (r.ts.getD 0) (resScan r) c hres
    ((regScan r).foldl (regBlockG (r.ts.getD 0)) st)
  have h3 := foldl_regBlockG_clean (r.ts.getD 0) (regScan r) c hreg st
  have h4 := foldl_regBlockG_rlog (r.ts.getD 0) (regScan r) st
  refine ⟨h1.trans h3, h2.trans ?_⟩
  rw [h4]

theorem stepRecordG_none_pres (proj sid : String) (st : GLState) (r : Record) (c : String)
    (hreg : ∀ b ∈ regScan r, blockRegisters c b = false)
    (hpend : alookup st.pending c = none) :
    alookup (stepRecordG proj sid st r).pending c = none ∧
    (stepRecordG proj sid st r).rlog.filter (fun e2 => e2.1 = c) =
      st.rlog.filter (fun e2 => e2.1 = c) := by
  rw [stepRecordG_scan]
  have h3 := foldl_regBlockG_clean (r.ts.getD 0) (regScan r) c hreg st
  obtain ⟨h1, h2⟩ := foldl_resBlockG_none proj sid (r.ts.getD 0) (resScan r) c
    ((regScan r).foldl (regBlockG (r.ts.getD 0)) st) (h3.trans hpend)
  refine ⟨h1, h2.trans ?_⟩
  rw [foldl_regBlockG_rlog]

theorem stepRecordG_registers (proj sid : String) (st : GLState) (r : Record) (c : String)
    (hc : c ≠ "") (hinv : ∃ b ∈ regScan r, blockRegisters c b = true) :
    (alookup (stepRecordG proj sid st r).pending c).isSome = true ∧
    (stepRecordG proj sid st r).rlog.filter (fun e2 => e2.1 = c) =
      st.rlog.filter (fun e2 => e2.1 = c) := by
  rw [stepRecordG_scan]
  have hinv2 := hinv
  obtain ⟨b0, hb0, _⟩ := hinv2
  rw [resScan_eq_nil r (List.ne_nil_of_mem hb0)]
  simp only [List.foldl_nil]
  refine ⟨foldl_regBlockG_registers (r.ts.getD 0) (regScan r) c hc hinv st, ?_⟩
  rw [foldl_regBlockG_rlog]

theorem stepRecordG_resolves (proj sid : String) (st : GLState) (r : Record) (c : String)
    (hc : c ≠ "") (hnd : (st.pending.map Prod.fst).Nodup)
    (hsome : (alookup st.pending c).isSome = true)
    (B1 B2 : List Block) (isE : Bool)
    (hscan : resScan r = B1 ++ .toolResult (some c) isE :: B2)
    (h1 : ∀ b ∈ B1, blockResolves c b = false)
    (h2 : ∀ b ∈ B2, blockResolves c b = false) :
    alookup (stepRecordG proj sid st r).pending c = none ∧
    (stepRecordG proj sid st r).rlog.filter (fun e2 => e2.1 = c) =
      st.rlog.filter (fun e2 => e2.1 = c) ++ [(c, !isE)] := by
  rw [stepRecordG_scan]
  have hreg0 : regScan r = [] := regScan_eq_nil r (by rw [hscan]; simp)
  rw [hreg0]
  simp only [List.foldl_nil]
  rw [hscan, List.foldl_append, List.foldl_cons]
  obtain ⟨hB1p, hB1g⟩ := foldl_resBlockG_clean proj sid (r.ts.getD 0) B1 c h1 st
  have hndB1 : ((B1.foldl (resBlockG proj sid (r.ts.getD 0)) st).pending.map Prod.fst).Nodup :=
    foldl_resBlockG_nodup proj sid (r.ts.getD 0) B1 st hnd
  have hsome1 : (alookup (B1.foldl (resBlockG proj sid (r.ts.getD 0)) st).pending c).isSome
      = true := by
    rw [hB1p]
    exact hsome
  obtain ⟨pt, hpt⟩ := Option.isSome_iff_exists.mp hsome1
  have hp2 : alookup (resBlockG proj sid (r.ts.getD 0)
      (B1.foldl (resBlockG proj sid (r.ts.getD 0)) st)
      (.toolResult (some c) isE)).pending c = none := by
    simp only [resBlockG, if_neg hc, hpt]
    exact alookup_aerase_self _ _ hndB1
  have hg2 : (resBlockG proj sid (r.ts.getD 0)
      (B1.foldl (resBlockG proj sid (r.ts.getD 0)) st)
      (.toolResult (some c) isE)).rlog =
      (B1.foldl (resBlockG proj sid (r.ts.getD 0)) st).rlog ++ [(c, !isE)] := by
    simp [resBlockG, hc, hpt]
  obtain ⟨hB2p, hB2g⟩ := foldl_resBlockG_none proj sid (r.ts.getD 0) B2 c _ hp2
  refine ⟨hB2p, ?_⟩
  rw [hB2g, hg2, List.filter_append, hB1g]
  simp

theorem runRecordsG_cons (proj sid : String) (st : GLState) (r : Record) (rs : List Record) :
    runRecordsG proj sid st (r :: rs) = runRecordsG proj sid (stepRecordG proj sid st r) rs :=
  rfl

theorem runRecordsG_append (proj sid : String) (A B : List Record) :
    ∀ st : GLState,
    runRecordsG proj sid st (A ++ B) = runRecordsG proj sid (runRecordsG proj sid st A) B := by
  induction A with
  | nil =>
    intro st
    rfl
  | cons r rest ih =>
    intro st
    rw [List.cons_append, runRecordsG_cons, runRecordsG_cons, ih]

theorem runG_clean_none (proj sid c : String) (L : List Record)
    (h : ∀ r ∈ L, ∀ b ∈ regScan r, blockRegisters c b = false) :
    ∀ st : GLState, alookup st.pending c = none → (st.pending.map Prod.fst).Nodup →
    alookup (runRecordsG proj sid st L).pending c = none ∧
    (runRecordsG proj sid st L).rlog.filter (fun e2 => e2.1 = c) =
      st.rlog.filter (fun e2 => e2.1 = c) ∧
    ((runRecordsG proj sid st L).pending.map Prod.fst).Nodup := by
  induction L with
  | nil =>
    intro st h1 h2
    exact ⟨h1, rfl, h2⟩
  | cons r rest ih =>
    intro st h1 h2
    obtain ⟨h3, h4⟩ := stepRecordG_none_pres proj sid st r c (h r (List.mem_cons_self _ _)) h1
    have h5 := stepRecordG_nodup proj sid st r h2
    obtain ⟨h6, h7, h8⟩ := ih (fun r2 hr2 => h r2 (List.mem_cons_of_mem _ hr2)) _ h3 h5
    exact ⟨h6, h7.trans h4, h8⟩

theorem runG_clean_keep (proj sid c : String) (L : List Record)
    (h : ∀ r ∈ L, (∀ b ∈ regScan r, blockRegisters c b = false) ∧
      (∀ b ∈ resScan r, blockResolves c b = false)) :
    ∀ st : GLState, (st.pending.map Prod.fst).Nodup →
    alookup (runRecordsG proj sid st L).pending c = alookup st.pending c ∧
    (runRecordsG proj sid st L).rlog.filter (fun e2 => e2.1 = c) =
      st.rlog.filter (fun e2 => e2.1 = c) ∧
    ((runRecordsG proj sid st L).pending.map Prod.fst).Nodup := by
  induction L with
  | nil =>
    intro st h2
    exact ⟨rfl, rfl, h2⟩
  | cons r rest ih =>
    intro st h2
    obtain ⟨h3, h4⟩ := stepRecordG_clean_pres proj sid st r c
      (h r (List.mem_cons_self _ _)).1 (h r (List.mem_cons_self _ _)).2
    have h5 := stepRecordG_nodup proj sid st r h2
    obtain ⟨h6, h7, h8⟩ := ih (fun r2 hr2 => h r2 (List.mem_cons_of_mem _ hr2)) _ h5
    exact ⟨h6.trans h3, h7.trans h4, h8⟩

/-- C2 (amended): within one file, an invocation/result pair sharing
correlation id `c` — a record registering `c` via a `tool_use` block,
followed by a record whose `tool_result` for `c` has `is_error = false`,
with no other block carrying `c` in between — yields exactly one logged
resolution of `c`, with `success = true`; `tool_result` blocks for `c`
in the trailing records are ignored.  The hypothesis on the trailing
records excludes only re-registrations: a later `tool_use` with the same
id would re-arm the correlation (see the counterexample).  The second
conjunct checks that the instrumented pass computes the very events of
`extract_tool_events`. -/
theorem C2_correlation_once (proj sid c : String) (hc : c ≠ "")
    (L1 L2 L3 : List Record) (Rinv Rres : Record)
    (h1 : ∀ r ∈ L1, ∀ b ∈ regScan r, blockRegisters c b = false)
    (hinv : ∃ b ∈ regScan Rinv, blockRegisters c b = true)
    (h2 : ∀ r ∈ L2, (∀ b ∈ regScan r, blockRegisters c b = false) ∧
      (∀ b ∈ resScan r, blockResolves c b = false))
    (hres : ∃ B1 B2, resScan Rres = B1 ++ Block.toolResult (some c) false :: B2 ∧
      (∀ b ∈ B1, blockResolves c b = false) ∧ (∀ b ∈ B2, blockResolves c b = false))
    (h3 : ∀ r ∈ L3, ∀ b ∈ regScan r, blockRegisters c b = false) :
    (runRecordsG proj sid ⟨[], [], []⟩ (L1 ++ Rinv :: (L2 ++ Rres :: L3))).rlog.filter
      (fun e2 => e2.1 = c) = [(c, true)] ∧
    (runRecordsG proj sid ⟨[], [], []⟩ (L1 ++ Rinv :: (L2 ++ Rres :: L3))).events =
      extract_tool_events proj sid (L1 ++ Rinv :: (L2 ++ Rres :: L3)) := by
  obtain ⟨B1, B2, hscan, hB1, hB2⟩ := hres
  have hsplit : runRecordsG proj sid ⟨[], [], []⟩ (L1 ++ Rinv :: (L2 ++ Rres :: L3)) =
      runRecordsG proj sid
        (stepRecordG proj sid
          (runRecordsG proj sid
            (stepRecordG proj sid (runRecordsG proj sid ⟨[], [], []⟩ L1) Rinv) L2) Rres) L3 := by
    rw [runRecordsG_append, runRecordsG_cons, runRecordsG_append, runRecordsG_cons]
  obtain ⟨_, p1g, p1nd⟩ := runG_clean_none proj sid c L1 h1 ⟨[], [], []⟩ rfl (by simp)
  obtain ⟨p2some, p2g⟩ := stepRecordG_registers proj sid
    (runRecordsG proj sid ⟨[], [], []⟩ L1) Rinv c hc hinv
  have p2nd := stepRecordG_nodup proj sid (runRecordsG proj sid ⟨[], [], []⟩ L1) Rinv p1nd
  obtain ⟨p3keep, p3g, p3nd⟩ := runG_clean_keep proj sid c L2 h2
    (stepRecordG proj sid (runRecordsG proj sid ⟨[], [], []⟩ L1) Rinv) p2nd
  have p3some : (alookup (runRecordsG proj sid
      (stepRecordG proj sid (runRecordsG proj sid ⟨[], [], []⟩ L1) Rinv) L2).pending
      c).isSome = true := by
    rw [p3keep]
    exact p2some
  obtain ⟨p4none, p4g⟩ := stepRecordG_resolves proj sid
    (runRecordsG proj sid (stepRecordG proj sid (runRecordsG proj sid ⟨[], [], []⟩ L1) Rinv) L2)
    Rres c hc p3nd p3some B1 B2 false hscan hB1 hB2
  have p4nd := stepRecordG_nodup proj sid
    (runRecordsG proj sid (stepRecordG proj sid (runRecordsG proj sid ⟨[], [], []⟩ L1) Rinv) L2)
    Rres p3nd
  obtain ⟨_, p5g, _⟩ := runG_clean_none proj sid c L3 h3
    (stepRecordG proj sid (runRecordsG proj sid
      (stepRecordG proj sid (runRecordsG proj sid ⟨[], [], []⟩ L1) Rinv) L2) Rres) p4none p4nd
  constructor
  · rw [hsplit, p5g, p4g, p3g, p2g, p1g]
    simp
  · exact (runRecordsG_erase proj sid (L1 ++ Rinv :: (L2 ++ Rres :: L3)) [] [] []).2

theorem C2_witness :
    (runRecordsG "p" "s" ⟨[], [], []⟩
      ([] ++ (⟨some "assistant", some 1, none,
          some ⟨none, none, .blocks [.toolUse (some "A") (some "Bash") .notDict]⟩⟩ : Record) ::
        ([] ++ (⟨some "user", some 2, none,
          some ⟨none, none, .blocks [.toolResult (some "A") false]⟩⟩ : Record) :: []))).rlog.filter
      (fun e2 => e2.1 = "A") = [("A", true)] ∧
    (runRecordsG "p" "s" ⟨[], [], []⟩
      ([] ++ (⟨some "assistant", some 1, none,
          some ⟨none, none, .blocks [.toolUse (some "A") (some "Bash") .notDict]⟩⟩ : Record) ::
        ([] ++ (⟨some "user", some 2, none,
          some ⟨none, none, .blocks [.toolResult (some "A") false]⟩⟩ : Record) :: []))).events =
      extract_tool_events "p" "s"
        ([] ++ (⟨some "assistant", some 1, none,
          some ⟨none, none, .blocks [.toolUse (some "A") (some "Bash") .notDict]⟩⟩ : Record) ::
        ([] ++ (⟨some "user", some 2, none,
          some ⟨none, none, .blocks [.toolResult (some "A") false]⟩⟩ : Record) :: [])) :=
  C2_correlation_once "p" "s" "A" (by decide) [] [] []
    ⟨some "assistant", some 1, none,
      some ⟨none, none, .blocks [.toolUse (some "A") (some "Bash") .notDict]⟩⟩
    ⟨some "user", some 2, none,
      some ⟨none, none, .blocks [.toolResult (some "A") false]⟩⟩
    (by simp)
    ⟨.toolUse (some "A") (some "Bash") .notDict, by norm_num [regScan], rfl⟩
    (by simp)
    ⟨[], [], by norm_num [resScan], by simp, by simp⟩
    (by simp)

/-- C2 counterexample: a correlation id does NOT resolve at most once per
file.  After `A` is resolved, a later `tool_use` re-registering `A`
re-arms it, and a second `tool_result` for `A` emits a second event: the
claim's "once an id has been resolved, any later tool_result carrying the
same id produces no event" fails on this four-record file. -/
theorem C2_counterexample :
    (extract_tool_events "p" "s"
      [⟨some "assistant", some 1, none,
          some ⟨none, none, .blocks [.toolUse (some "A") (some "Bash") .notDict]⟩⟩,
       ⟨some "user", some 2, none,
          some ⟨none, none, .blocks [.toolResult (some "A") false]⟩⟩,
       ⟨some "assistant", some 3, none,
          some ⟨none, none, .blocks [.toolUse (some "A") (some "Bash") .notDict]⟩⟩,
       ⟨some "user", some 4, none,
          some ⟨none, none, .blocks [.toolResult (some "A") false]⟩⟩]).length = 2 ∧
    (runRecordsG "p" "s" ⟨[], [], []⟩
      [⟨some "assistant", some 1, none,
          some ⟨none, none, .blocks [.toolUse (some "A") (some "Bash") .notDict]⟩⟩,
       ⟨some "user", some 2, none,
          some ⟨none, none, .blocks [.toolResult (some "A") false]⟩⟩,
       ⟨some "assistant", some 3, none,
          some ⟨none, none, .blocks [.toolUse (some "A") (some "Bash") .notDict]⟩⟩,
       ⟨some "user", some 4, none,
          some ⟨none, none, .blocks [.toolResult (some "A") false]⟩⟩]).rlog.filter
      (fun e2 => e2.1 = "A") = [("A", true), ("A", true)] := by
  have hstep1 : stepRecordG "p" "s" ⟨[], [], []⟩
      ⟨some "assistant", some 1, none,
        some ⟨none, none, .blocks [.toolUse (some "A") (some "Bash") .notDict]⟩⟩ =
      ⟨[("A", ⟨"Bash", .notDict, 1⟩)], [], []⟩ := by
    norm_num [stepRecordG, regBlockG, aset, (by decide : ("assistant" : String) ≠ "user"),
      (by decide : ("A" : String) ≠ "")]
  have hstep2 : stepRecordG "p" "s" ⟨[("A", ⟨"Bash", .notDict, 1⟩)], [], []⟩
      ⟨some "user", some 2, none,
        some ⟨none, none, .blocks [.toolResult (some "A") false]⟩⟩ =
      ⟨[], [⟨toString (pyInt ((2 : ℚ) * 1000000000)), "p", "s", "Bash", true,
        durationMs 1 2, build_tool_parameters "Bash" ToolInput.notDict⟩], [("A", true)]⟩ := by
    norm_num [stepRecordG, resBlockG, alookup, aerase,
      (by decide : ("user" : String) ≠ "assistant"), (by decide : ("A" : String) ≠ "")]
  have hstep3 : stepRecordG "p" "s"
      ⟨[], [⟨toString (pyInt ((2 : ℚ) * 1000000000)), "p", "s", "Bash", true,
        durationMs 1 2, build_tool_parameters "Bash" ToolInput.notDict⟩], [("A", true)]⟩
      ⟨some "assistant", some 3, none,
        some ⟨none, none, .blocks [.toolUse (some "A") (some "Bash") .notDict]⟩⟩ =
      ⟨[("A", ⟨"Bash", .notDict, 3⟩)],
       [⟨toString (pyInt ((2 : ℚ) * 1000000000)), "p", "s", "Bash", true,
        durationMs 1 2, build_tool_parameters "Bash" ToolInput.notDict⟩], [("A", true)]⟩ := by
    norm_num [stepRecordG, regBlockG, aset, (by decide : ("assistant" : String) ≠ "user"),
      (by decide : ("A" : String) ≠ "")]
  have hstep4 : stepRecordG "p" "s"
      ⟨[("A", ⟨"Bash", .notDict, 3⟩)],
       [⟨toString (pyInt ((2 : ℚ) * 1000000000)), "p", "s", "Bash", true,
        durationMs 1 2, build_tool_parameters "Bash" ToolInput.notDict⟩], [("A", true)]⟩
      ⟨some "user", some 4, none,
        some ⟨none, none, .blocks [.toolResult (some "A") false]⟩⟩ =
      ⟨[], [⟨toString (pyInt ((2 : ℚ) * 1000000000)), "p", "s", "Bash", true,
        durationMs 1 2, build_tool_parameters "Bash" ToolInput.notDict⟩,
       ⟨toString (pyInt ((4 : ℚ) * 1000000000)), "p", "s", "Bash", true,
        durationMs 3 4, build_tool_parameters "Bash" ToolInput.notDict⟩],
       [("A", true), ("A", true)]⟩ := by
    norm_num [stepRecordG, resBlockG, alookup, aerase,
      (by decide : ("user" : String) ≠ "assistant"), (by decide : ("A" : String) ≠ "")]
  have hrun : runRecordsG "p" "s" ⟨[], [], []⟩
      [⟨some "assistant", some 1, none,
          some ⟨none, none, .blocks [.toolUse (some "A") (some "Bash") .notDict]⟩⟩,
       ⟨some "user", some 2, none,
          some ⟨none, none, .blocks [.toolResult (some "A") false]⟩⟩,
       ⟨some "assistant", some 3, none,
          some ⟨none, none, .blocks [.toolUse (some "A") (some "Bash") .notDict]⟩⟩,
       ⟨some "user", some 4, none,
          some ⟨none, none, .blocks [.toolResult (some "A") false]⟩⟩] =
      ⟨[], [⟨toString (pyInt ((2 : ℚ) * 1000000000)), "p", "s", "Bash", true,
        durationMs 1 2, build_tool_parameters "Bash" ToolInput.notDict⟩,
       ⟨toString (pyInt ((4 : ℚ) * 1000000000)), "p", "s", "Bash", true,
        durationMs 3 4, build_tool_parameters "Bash" ToolInput.notDict⟩],
       [("A", true), ("A", true)]⟩ := by
    rw [runRecordsG_cons, hstep1, runRecordsG_cons, hstep2, runRecordsG_cons, hstep3,
      runRecordsG_cons, hstep4]
    rfl
  constructor
  · have herase := (runRecordsG_erase "p" "s"
      [⟨some "assistant", some 1, none,
          some ⟨none, none, .blocks [.toolUse (some "A") (some "Bash") .notDict]⟩⟩,
       ⟨some "user", some 2, none,
          some ⟨none, none, .blocks [.toolResult (some "A") false]⟩⟩,
       ⟨some "assistant", some 3, none,
          some ⟨none, none, .blocks [.toolUse (some "A") (some "Bash") .notDict]⟩⟩,
       ⟨some "user", some 4, none,
          some ⟨none, none, .blocks [.toolResult (some "A") false]⟩⟩] [] [] []).2
    have hev : extract_tool_events "p" "s"
      [⟨some "assistant", some 1, none,
          some ⟨none, none, .blocks [.toolUse (some "A") (some "Bash") .notDict]⟩⟩,
       ⟨some "user", some 2, none,
          some ⟨none, none, .blocks [.toolResult (some "A") false]⟩⟩,
       ⟨some "assistant", some 3, none,
          some ⟨none, none, .blocks [.toolUse (some "A") (some "Bash") .notDict]⟩⟩,
       ⟨some "user", some 4, none,
          some ⟨none, none, .blocks [.toolResult (some "A") false]⟩⟩] =
      (runRecordsG "p" "s" ⟨[], [], []⟩
      [⟨some "assistant", some 1, none,
          some ⟨none, none, .blocks [.toolUse (some "A") (some "Bash") .notDict]⟩⟩,
       ⟨some "user", some 2, none,
          some ⟨none, none, .blocks [.toolResult (some "A") false]⟩⟩,
       ⟨some "assistant", some 3, none,
          some ⟨none, none, .blocks [.toolUse (some "A") (some "Bash") .notDict]⟩⟩,
       ⟨some "user", some 4, none,
          some ⟨none, none, .blocks [.toolResult (some "A") false]⟩⟩]).events := herase.symm
    rw [hev, hrun]
    rfl
  · rw [hrun]
    simp
